import Mathlib

/-!
ISAAC byte-stream generator (`isaac.c`): embedding and verified properties

The program reads a 1024-octet seed from standard input, unpacks it big-endian
into the 256-word state `s`, and then repeats forever: run one ISAAC round,
pack the result batch `r` big-endian into the buffer `be`, write the buffer.

Conventions of the embedding
* `uword32` values are `Nat`, every operation that can leave the range is
  followed by `% 0x100000000`; octets are `Nat` below 256.
* `int` values are `Int`; conversions between `uword32` and `int` are the
  two's-complement ones (`toInt32`, `ofInt32`), `>>` on `int` is the arithmetic
  shift and `&` on `int` acts on the 32-bit two's-complement representation.
* arrays are lists; every array access is checked and yields `none` outside
  the bounds, so all loops are `Option`-valued.
* the scratch word `v` of the two packing loops is declared inside the loop
  body. `loadStep` and `packStep` describe the execution in which `v` keeps its
  storage, so that each iteration finds the value the previous one left; this
  is one of the executions the declaration allows. `loadStepFresh` and
  `packStepFresh` describe all of them: `v` starts every iteration with an
  arbitrary value.
* the environment is explicit: `argc`, the octets available on standard input,
  and the outcome of each `fwrite` call, one list element per call.
-/

namespace Isaac

/-! ## Machine integers -/

/-- Conversion of a `uword32` to `int` (two's complement, 32 bits). -/
def toInt32 (u : Nat) : Int :=
  if u % 0x100000000 < 0x80000000 then ((u % 0x100000000 : Nat) : Int)
  else ((u % 0x100000000 : Nat) : Int) - 0x100000000

/-- Conversion of an `int` to `uword32` (reduction modulo 2^32). -/
def ofInt32 (x : Int) : Nat := (x % 0x100000000).toNat

/-- Bitwise `&` of two `int` operands, computed on their 32-bit
two's-complement representations. -/
def intAnd (x y : Int) : Int := toInt32 (ofInt32 x &&& ofInt32 y)

/-! ## Arrays with checked access -/

/-- Array read `l[k]` with an `int` index. -/
def rd (l : List Nat) (k : Int) : Option Nat :=
  if 0 ≤ k then l[k.toNat]? else none

/-- Array write `l[k] = x` with an `int` index. -/
def wr (l : List Nat) (k : Int) (x : Nat) : Option (List Nat) :=
  if 0 ≤ k ∧ k.toNat < l.length then some (l.set k.toNat x) else none

/-- Zero-initialised static array of `n` elements. -/
def zeros (n : Nat) : List Nat := List.replicate n 0

/-- Loop `for (i = 0; i < n; ++i) body(i)`: the iterations `0, 1, ..., n-1` in order. -/
def forLoop {σ : Type} (body : Nat → σ → Option σ) : Nat → σ → Option σ
  | 0, st => some st
  | n + 1, st => (forLoop body n st).bind (body n)

/-- Size in octets of `s` (256 words of 4 octets). -/
def sizeof_s : Nat := 256 * 4

/-- Size in octets of `be`. -/
def sizeof_be : Nat := 4 * 256

/-- Element count `DIM(be)`. -/
def DIM_be : Nat := sizeof_be / 1

/-! ## Seed unpacking loop (lines 53-61) -/

/-- Variables of the seed unpacking loop: scratch word `v`, index `j`, array `s`. -/
structure LoadSt where
  v : Nat
  j : Int
  s : List Nat
deriving DecidableEq, Repr

/-- Body of the seed unpacking loop for loop counter `i`. -/
def loadStep (be : List Nat) (i : Nat) (st : LoadSt) : Option LoadSt :=
  let v1 := if intAnd i 3 = 0 then 0 else (st.v <<< 8) % 0x100000000
  (rd be i).bind fun byte =>
  let v2 := (v1 + byte) % 0x100000000
  if intAnd i 3 = 3 then
    (wr st.s st.j v2).bind fun s1 => some { v := v2, j := st.j + 1, s := s1 }
  else some { v := v2, j := st.j, s := st.s }

/-- The seed unpacking loop: `v0` is the initial content of the scratch word,
`be` the I/O buffer, `s0` the array `s` before the loop. -/
def loadSeed (v0 : Nat) (be s0 : List Nat) : Option (List Nat) :=
  (forLoop (loadStep be) DIM_be { v := v0, j := 0, s := s0 }).map LoadSt.s

/-! ## The ISAAC round (lines 64-73) -/

/-- Generator variables: accumulator `a`, last result `b`, counter `c`,
state array `s`, result array `r`. -/
structure Engine where
  a : Nat
  b : Nat
  c : Nat
  s : List Nat
  r : List Nat
deriving DecidableEq, Repr

/-- The table `static int lshift[4]`. -/
def lshift : List Int := [13, -6, 2, -16]

/-- Body of the inner loop of a round for loop counter `i`. -/
def step (i : Nat) (e : Engine) : Option Engine :=
  (if 0 ≤ intAnd i 3 then lshift[(intAnd i 3).toNat]? else none).bind fun lshift_bits =>
  let a1 := e.a ^^^ (if lshift_bits > 0 then (e.a <<< lshift_bits.toNat) % 0x100000000
                     else e.a >>> (-lshift_bits).toNat)
  (rd e.s (intAnd (i + 128) 0xff)).bind fun t0 =>
  let a2 := (a1 + t0) % 0x100000000
  (rd e.s i).bind fun si =>
  let x : Int := toInt32 si
  (rd e.s (intAnd (x >>> (2 : Nat)) 0xff)).bind fun t1 =>
  let sy := (a2 + e.b + t1) % 0x100000000
  (wr e.s i sy).bind fun s1 =>
  let y : Int := toInt32 sy
  (rd s1 (intAnd (y >>> (10 : Nat)) 0xff)).bind fun t2 =>
  let b1 := (ofInt32 x + t2) % 0x100000000
  (wr e.r i b1).bind fun r1 =>
  some { a := a2, b := b1, c := e.c, s := s1, r := r1 }

/-- One round: `b += ++c` followed by the 256 steps. -/
def round (e : Engine) : Option Engine :=
  let c1 := (e.c + 1) % 0x100000000
  let b1 := (e.b + c1) % 0x100000000
  forLoop step 256 { e with b := b1, c := c1 }

/-! ## Result packing loop (lines 74-82) -/

/-- Variables of the packing loop: scratch word `v`, index `j`, buffer `be`. -/
structure PackSt where
  v : Nat
  j : Int
  be : List Nat
deriving DecidableEq, Repr

/-- Body of the packing loop for loop counter `i`. -/
def packStep (r : List Nat) (i : Nat) (st : PackSt) : Option PackSt :=
  (if intAnd i 3 = 0 then (rd r st.j).map fun w => (w, st.j + 1)
   else some (st.v, st.j)).bind fun vj =>
  (wr st.be (intAnd i (~~~(3 : Int)) + (3 - intAnd i 3)) (vj.1 &&& 0xff)).bind fun be1 =>
  some { v := vj.1 >>> 8, j := vj.2, be := be1 }

/-- The packing loop: `v0` is the initial content of the scratch word, `r` the
result batch, `be0` the buffer before the loop. -/
def packLoop (v0 : Nat) (r be0 : List Nat) : Option (List Nat) :=
  (forLoop (packStep r) DIM_be { v := v0, j := 0, be := be0 }).map PackSt.be

/-! ## The program (`main`) -/

/-- Platform data that the source leaves open: the value of `EPIPE` and the
initial content of the scratch words. -/
structure Platform where
  EPIPE : Int
  junk : Nat

/-- Outcome of one `fwrite(be, 1, sizeof be, stdout)` call: the returned count,
`ferror(stdout)` after the call, and `errno` after the call. -/
structure WriteResult where
  ret : Nat
  ferr : Bool
  errno : Int
deriving DecidableEq, Repr

/-- How a run stands at the end of the given environment trace. -/
inductive Status
  /-- Still in the generate loop: every write so far was accepted in full. -/
  | running
  /-- Left the loop through `break`; `main` returns with success status. -/
  | returned
  /-- The program called `abort()`. -/
  | aborted
  /-- An array was accessed outside its bounds. -/
  | fault
deriving DecidableEq, Repr

/-- Observable summary of a run. -/
structure Run where
  status : Status
  /-- Whether the usage text was written to `stderr`. -/
  usage : Bool
  /-- Number of rounds executed. -/
  rounds : Nat
  /-- Octets accepted by `stdout`, in order. -/
  out : List Nat
deriving DecidableEq, Repr

/-- Library call `fread(buf, 1, n, stdin)`: transfers the first `n` available
octets (all of them when fewer are available) to the start of `buf` and
returns the new buffer and the count. -/
def fread (buf : List Nat) (n : Nat) (stdin : List Nat) : List Nat × Nat :=
  let got := stdin.take n
  (got ++ buf.drop got.length, got.length)

/-- The loop `for (;;)` of `main`, one iteration per element of the write
trace: round, packing, `fwrite`, and the handling of its result. An array
access outside the bounds ends the run with status `fault`. -/
def generate (p : Platform) : List WriteResult → Engine → List Nat → Nat → List Nat → Run
  | [], _, _, n, out => { status := .running, usage := false, rounds := n, out := out }
  | w :: ws, e, be, n, out =>
    ((round e).bind fun e1 =>
      (packLoop p.junk e1.r be).map fun be1 =>
        if w.ret ≠ sizeof_be then
          let e := w.errno
          if w.ferr && e == p.EPIPE then
            { status := .returned, usage := false, rounds := n + 1, out := out ++ be1.take w.ret }
          else
            { status := .aborted, usage := false, rounds := n + 1, out := out ++ be1.take w.ret }
        else generate p ws e1 be1 (n + 1) (out ++ be1)).getD
      { status := .fault, usage := false, rounds := n, out := out }

/-- Seed unpacking followed by `a = b = c = 0` (lines 53-62): the generator
variables on entry to the generate loop. -/
def boot (v0 : Nat) (be : List Nat) : Option Engine :=
  (loadSeed v0 be (zeros 256)).map fun s1 =>
    { a := 0, b := 0, c := 0, s := s1, r := zeros 256 }

/-- The program: `argc`, the octets available on standard input and the
outcomes of the successive `fwrite` calls determine the run. -/
def main (p : Platform) (argc : Int) (stdin : List Nat) (ws : List WriteResult) : Run :=
  if argc > 1 ∨ (fread (zeros sizeof_be) sizeof_s stdin).2 ≠ sizeof_be then
    { status := .aborted, usage := true, rounds := 0, out := [] }
  else
    match boot p.junk (fread (zeros sizeof_be) sizeof_s stdin).1 with
    | none => { status := .fault, usage := false, rounds := 0, out := [] }
    | some e => generate p ws e (fread (zeros sizeof_be) sizeof_s stdin).1 0 []

/-! ## Reference definitions, following the specification text -/

/-- Spec 4.1: the `j`-th group of 4 octets read as a big-endian word. -/
def beWord (be : List Nat) (j : Nat) : Nat :=
  be.getD (4 * j) 0 * 2 ^ 24 + be.getD (4 * j + 1) 0 * 2 ^ 16
    + be.getD (4 * j + 2) 0 * 2 ^ 8 + be.getD (4 * j + 3) 0

/-- Spec 4.1: the 256 words of a 1024-octet seed, group order preserved. -/
def wordsOf (be : List Nat) : List Nat := (List.range 256).map (beWord be)

/-- Spec 4.3: the 4 octets of a word, most significant first. -/
def beOctets (w : Nat) : List Nat :=
  [(w >>> 24) % 256, (w >>> 16) % 256, (w >>> 8) % 256, w % 256]

/-- Spec 4.3: big-endian serialisation of a batch of words. -/
def beBytes (r : List Nat) : List Nat := r.flatMap beOctets

/-- Spec 4.2: the shift applied to the accumulator at step `i`, selected by
`i mod 4` from `[13, -6, 2, -16]` (positive: left, negative: right). -/
def shSpec (i a : Nat) : Nat :=
  match i % 4 with
  | 0 => (a <<< 13) % 2 ^ 32
  | 1 => a >>> 6
  | 2 => (a <<< 2) % 2 ^ 32
  | _ => a >>> 16

/-- Spec 4.2, item 2: step `i` of a round on unsigned 32-bit words. -/
def stepSpec (i : Nat) (e : Engine) : Engine :=
  let a := ((e.a ^^^ shSpec i e.a) % 2 ^ 32 + e.s.getD ((i + 128) % 256) 0) % 2 ^ 32
  let x := e.s.getD i 0
  let y := (a + e.b + e.s.getD ((x >>> 2) % 256) 0) % 2 ^ 32
  let s1 := e.s.set i y
  let ri := (x + s1.getD ((y >>> 10) % 256) 0) % 2 ^ 32
  { a := a, b := ri, c := e.c, s := s1, r := e.r.set i ri }

/-- Spec 4.2: one round, the counter update followed by steps 0..255 in order. -/
def roundSpec (e : Engine) : Engine :=
  let c1 := (e.c + 1) % 2 ^ 32
  let b1 := (e.b + c1) % 2 ^ 32
  (List.range 256).foldl (fun st i => stepSpec i st) { e with b := b1, c := c1 }

/-- State after `k` rounds of the code, started from `e`. -/
def roundsFrom (e : Engine) : Nat → Option Engine
  | 0 => some e
  | k + 1 => (roundsFrom e k).bind round

/-- Well-formed generator variables: 32-bit registers, 256 32-bit words in `s`,
256 cells in `r`. -/
def Engine.WF (e : Engine) : Prop :=
  e.a < 2 ^ 32 ∧ e.b < 2 ^ 32 ∧ e.c < 2 ^ 32 ∧ e.s.length = 256 ∧ e.r.length = 256
    ∧ ∀ w ∈ e.s, w < 2 ^ 32

/-- A 1024-octet buffer. -/
def IsBuf (be : List Nat) : Prop := be.length = 1024 ∧ ∀ x ∈ be, x < 256

/-- Invariant of the seed unpacking loop at a word boundary. -/
def LoadInv (be : List Nat) (q : Nat) (st : LoadSt) : Prop :=
  st.j = q ∧ st.s.length = 256 ∧ ∀ k, k < q → st.s[k]? = some (beWord be k)

/-- Invariant of the packing loop at a word boundary. -/
def PackInv (r : List Nat) (q : Nat) (st : PackSt) : Prop :=
  st.j = q ∧ st.be.length = 1024 ∧ ∀ i, i < 4 * q → st.be[i]? = (beBytes r)[i]?

/-- Concatenation of the first `K` output blocks of the reference generator started at `e`. -/
def streamFrom (e : Engine) : Nat → List Nat
  | 0 => []
  | K + 1 => beBytes (roundSpec e).r ++ streamFrom (roundSpec e) K

/-- The run that ends in the usage text and `abort()` before anything is generated. -/
def usageAbort : Run := { status := .aborted, usage := true, rounds := 0, out := [] }

/-- Generator variables on entry to the generate loop for the seed `be`. -/
def seedEngine (be : List Nat) : Engine :=
  { a := 0, b := 0, c := 0, s := wordsOf be, r := zeros 256 }

/-- The statement `b += ++c` that opens a round. -/
def counterUpdate (e : Engine) : Engine :=
  { e with b := (e.b + (e.c + 1) % 0x100000000) % 0x100000000, c := (e.c + 1) % 0x100000000 }

/-- The generator state proper, `(a, b, c, s)`, without the result array. -/
def Engine.core (e : Engine) : Nat × Nat × Nat × List Nat := (e.a, e.b, e.c, e.s)

/-- The reference state after the first `n` steps of a round started in `e`. -/
def stepsSpec (n : Nat) (e : Engine) : Engine :=
  (List.range n).foldl (fun st i => stepSpec i st) e

/-- A seed with distinct octets in every word: octet `i` is `i mod 256`. -/
def ramp : List Nat := (List.range 1024).map (fun i => i % 256)

/-- Body of the seed unpacking loop when `v`, declared inside the loop body
(line 56), is a new object at every iteration: `junk i` is the value it holds
when iteration `i` starts. -/
def loadStepFresh (junk : Nat → Nat) (be : List Nat) (i : Nat) (st : LoadSt) : Option LoadSt :=
  loadStep be i { st with v := junk i }

/-- The seed unpacking loop with a new `v` at every iteration. -/
def loadSeedFresh (junk : Nat → Nat) (be s0 : List Nat) : Option (List Nat) :=
  (forLoop (loadStepFresh junk be) DIM_be { v := junk 0, j := 0, s := s0 }).map LoadSt.s

/-- Body of the packing loop when `v`, declared inside the loop body (line 77),
is a new object at every iteration: `junk i` is the value it holds when
iteration `i` starts. -/
def packStepFresh (junk : Nat → Nat) (r : List Nat) (i : Nat) (st : PackSt) : Option PackSt :=
  packStep r i { st with v := junk i }

/-- The packing loop with a new `v` at every iteration. -/
def packLoopFresh (junk : Nat → Nat) (r be0 : List Nat) : Option (List Nat) :=
  (forLoop (packStepFresh junk r) DIM_be { v := junk 0, j := 0, be := be0 }).map PackSt.be

/-- The word that iteration `4q + 3` of the seed unpacking loop stores in `s[q]`
when `v` is new at every iteration. -/
def freshWord (junk : Nat → Nat) (be : List Nat) (q : Nat) : Nat :=
  ((junk (4 * q + 3) <<< 8) % 0x100000000 + be.getD (4 * q + 3) 0) % 0x100000000

/-- The octet at position `i` of the packed buffer when `v` is new at every
iteration: the low octet of `r[i / 4]` at the last position of a word, the low
octet of a scratch value elsewhere. -/
def freshOctet (junk : Nat → Nat) (r : List Nat) (i : Nat) : Nat :=
  if i % 4 = 3 then r.getD (i / 4) 0 % 256 else junk (4 * (i / 4) + (3 - i % 4)) % 256

/-- Invariant of the seed unpacking loop with a new `v` per iteration, at a word boundary. -/
def LoadInvFresh (junk : Nat → Nat) (be : List Nat) (q : Nat) (st : LoadSt) : Prop :=
  st.j = q ∧ st.s.length = 256 ∧ ∀ k, k < q → st.s[k]? = some (freshWord junk be k)

/-- Invariant of the packing loop with a new `v` per iteration, at a word boundary. -/
def PackInvFresh (junk : Nat → Nat) (r : List Nat) (q : Nat) (st : PackSt) : Prop :=
  st.j = q ∧ st.be.length = 1024 ∧ ∀ i, i < 4 * q → st.be[i]? = some (freshOctet junk r i)

/-- The value of the carried `v` when iteration `i` of the seed unpacking loop starts. -/
def carriedLoadV (v0 : Nat) (be s0 : List Nat) (i : Nat) : Nat :=
  ((forLoop (loadStep be) i { v := v0, j := 0, s := s0 }).map LoadSt.v).getD 0

/-- The value of the carried `v` when iteration `i` of the packing loop starts. -/
def carriedPackV (v0 : Nat) (r be0 : List Nat) (i : Nat) : Nat :=
  ((forLoop (packStep r) i { v := v0, j := 0, be := be0 }).map PackSt.v).getD 0

/-! ## Machine-integer facts -/

theorem ofInt32_toInt32 {u : Nat} (h : u < 0x100000000) : ofInt32 (toInt32 u) = u := by
  unfold ofInt32 toInt32
  split <;> omega

theorem intAnd_three (i : Nat) : intAnd i 3 = ((i % 4 : Nat) : Int) := by
  unfold intAnd
  have h1 : ofInt32 3 = 2 ^ 2 - 1 := by decide
  rw [h1, Nat.and_pow_two_sub_one_eq_mod]
  unfold ofInt32 toInt32
  split <;> omega

theorem intAnd_ff (x : Int) : intAnd x 0xff = x % 256 := by
  unfold intAnd
  have h1 : ofInt32 0xff = 2 ^ 8 - 1 := by decide
  rw [h1, Nat.and_pow_two_sub_one_eq_mod]
  unfold ofInt32 toInt32
  split <;> omega

set_option maxRecDepth 100000 in
theorem intAnd_not_three : ∀ i : Nat, i < 1024 →
    intAnd (i : Int) (~~~(3 : Int)) = ((i - i % 4 : Nat) : Int) := by
  decide

theorem rd_nat (l : List Nat) (i : Nat) : rd l (i : Int) = l[i]? := by
  simp [rd]

theorem wr_nat (l : List Nat) (i : Nat) (x : Nat) (h : i < l.length) :
    wr l (i : Int) x = some (l.set i x) := by
  simp [wr, h]

theorem forLoop_succ {σ : Type} (body : Nat → σ → Option σ) (n : Nat) (st : σ) :
    forLoop body (n + 1) st = (forLoop body n st).bind (body n) := rfl

theorem forLoop_four {σ : Type} (body : Nat → σ → Option σ) (q : Nat) (st : σ) :
    forLoop body (4 * (q + 1)) st =
      ((((forLoop body (4 * q) st).bind (body (4 * q))).bind (body (4 * q + 1))).bind
        (body (4 * q + 2))).bind (body (4 * q + 3)) := rfl

theorem rd_getD (l : List Nat) (i : Nat) (h : i < l.length) : rd l (i : Int) = some (l.getD i 0) := by
  simp [rd, List.getD, List.getElem?_eq_getElem h]

theorem getD_lt_of_forall {l : List Nat} {B : Nat} (hB : 0 < B) (h : ∀ x ∈ l, x < B) (k : Nat) :
    l.getD k 0 < B := by
  by_cases hk : k < l.length
  · rw [List.getD_eq_getElem l 0 hk]
    exact h _ (List.getElem_mem hk)
  · rw [List.getD_eq_default l 0 (by omega)]
    exact hB

/-! ## Seed unpacking -/

theorem loadStep_block (be : List Nat) (hbe : be.length = 1024) (hb : ∀ k, be.getD k 0 < 256)
    (q : Nat) (hq : q < 256) (st : LoadSt) (hj : st.j = q) (hs : q < st.s.length) :
    ((((some st).bind (loadStep be (4 * q))).bind (loadStep be (4 * q + 1))).bind
        (loadStep be (4 * q + 2))).bind (loadStep be (4 * q + 3))
      = some { v := beWord be q, j := (q : Int) + 1, s := st.s.set q (beWord be q) } := by
  have m0 : (4 * q) % 4 = 0 := by omega
  have m1 : (4 * q + 1) % 4 = 1 := by omega
  have m2 : (4 * q + 2) % 4 = 2 := by omega
  have m3 : (4 * q + 3) % 4 = 3 := by omega
  have b0 := hb (4 * q)
  have b1 := hb (4 * q + 1)
  have b2 := hb (4 * q + 2)
  have b3 := hb (4 * q + 3)
  simp only [loadStep, Option.some_bind, intAnd_three, m0, m1, m2, m3,
    rd_getD be (4 * q) (by omega), rd_getD be (4 * q + 1) (by omega),
    rd_getD be (4 * q + 2) (by omega), rd_getD be (4 * q + 3) (by omega)]
  norm_num [hj, wr_nat _ _ _ hs, Nat.shiftLeft_eq, beWord]
  simp only [List.getD_eq_getElem?_getD] at b0 b1 b2 b3
  have hv : (((be[4 * q]?.getD 0 % 4294967296 * 256 + be[4 * q + 1]?.getD 0) % 4294967296 * 256
      + be[4 * q + 2]?.getD 0) % 4294967296 * 256 + be[4 * q + 3]?.getD 0) % 4294967296
      = be[4 * q]?.getD 0 * 16777216 + be[4 * q + 1]?.getD 0 * 65536
        + be[4 * q + 2]?.getD 0 * 256 + be[4 * q + 3]?.getD 0 := by omega
  rw [hv]
  exact ⟨rfl, rfl⟩


theorem load_inv (be : List Nat) (hbe : be.length = 1024) (hb : ∀ k, be.getD k 0 < 256)
    (v0 : Nat) (s0 : List Nat) (hs0 : s0.length = 256) (q : Nat) (hq : q ≤ 256) :
    ∃ st, forLoop (loadStep be) (4 * q) { v := v0, j := 0, s := s0 } = some st
      ∧ LoadInv be q st := by
  induction q with
  | zero => exact ⟨_, rfl, by simp [LoadInv, hs0]⟩
  | succ q ih =>
    obtain ⟨st, hst, hj, hlen, hk⟩ := ih (by omega)
    refine ⟨{ v := beWord be q, j := (q : Int) + 1, s := st.s.set q (beWord be q) }, ?_, ?_⟩
    · rw [forLoop_four, hst]
      exact loadStep_block be hbe hb q (by omega) st hj (by omega)
    · refine ⟨by simp, by simp [hlen], ?_⟩
      intro k hkq
      simp only [List.getElem?_set]
      by_cases h : q = k
      · subst h
        simp [hlen]; omega
      · simp only [h, if_false]
        exact hk k (by omega)

theorem wordsOf_getElem? (be : List Nat) (k : Nat) (hk : k < 256) :
    (wordsOf be)[k]? = some (beWord be k) := by
  simp [wordsOf, List.getElem?_range hk]

theorem loadSeed_eq (be : List Nat) (hbe : be.length = 1024) (hb : ∀ k, be.getD k 0 < 256)
    (v0 : Nat) (s0 : List Nat) (hs0 : s0.length = 256) :
    loadSeed v0 be s0 = some (wordsOf be) := by
  obtain ⟨st, hst, -, hlen, hk⟩ := load_inv be hbe hb v0 s0 hs0 256 (le_refl _)
  have h4 : DIM_be = 4 * 256 := by decide
  rw [loadSeed, h4, hst]
  simp only [Option.map_some', Option.some.injEq]
  apply List.ext_getElem?
  intro k
  by_cases hk2 : k < 256
  · rw [hk k hk2, wordsOf_getElem? be k hk2]
  · rw [List.getElem?_eq_none (by omega), List.getElem?_eq_none (by simp [wordsOf]; omega)]


/-! ## Result packing -/

theorem pack_index (i : Nat) (hi : i < 1024) :
    intAnd i (~~~(3 : Int)) + (3 - intAnd i 3) = ((i - i % 4 + (3 - i % 4) : Nat) : Int) := by
  rw [intAnd_not_three i hi, intAnd_three]
  omega

theorem and_ff (w : Nat) : w &&& 0xff = w % 256 :=
  Nat.and_pow_two_sub_one_eq_mod w 8

theorem packStep_eq (r : List Nat) (i : Nat) (hi : i < 1024) (st : PackSt) :
    packStep r i st =
      (if i % 4 = 0 then (rd r st.j).map fun w => (w, st.j + 1)
       else some (st.v, st.j)).bind fun vj =>
      (wr st.be ((i - i % 4 + (3 - i % 4) : Nat) : Int) (vj.1 % 256)).bind fun be1 =>
      some { v := vj.1 >>> 8, j := vj.2, be := be1 } := by
  unfold packStep
  rw [pack_index i hi, intAnd_three]
  simp only [and_ff, Int.natCast_eq_zero]

theorem packStep_block (r : List Nat) (q : Nat) (hq : q < 256) (hr : r.length = 256)
    (st : PackSt) (hj : st.j = q) (hbe : st.be.length = 1024) :
    ((((some st).bind (packStep r (4 * q))).bind (packStep r (4 * q + 1))).bind
        (packStep r (4 * q + 2))).bind (packStep r (4 * q + 3))
      = some { v := r.getD q 0 >>> 32, j := (q : Int) + 1,
               be := (((st.be.set (4 * q + 3) (r.getD q 0 % 256)).set (4 * q + 2)
                  ((r.getD q 0 >>> 8) % 256)).set (4 * q + 1)
                  ((r.getD q 0 >>> 16) % 256)).set (4 * q) ((r.getD q 0 >>> 24) % 256) } := by
  have m0 : (4 * q) % 4 = 0 := by omega
  have m1 : (4 * q + 1) % 4 = 1 := by omega
  have m2 : (4 * q + 2) % 4 = 2 := by omega
  have m3 : (4 * q + 3) % 4 = 3 := by omega
  have i0 : 4 * q - 0 + (3 - 0) = 4 * q + 3 := by omega
  have i1 : 4 * q + 1 - 1 + (3 - 1) = 4 * q + 2 := by omega
  have i2 : 4 * q + 2 - 2 + (3 - 2) = 4 * q + 1 := by omega
  have i3 : 4 * q + 3 - 3 + (3 - 3) = 4 * q := by omega
  have s8 : ∀ w : Nat, (w >>> 8) >>> 8 = w >>> 16 ∧ (w >>> 16) >>> 8 = w >>> 24
      ∧ (w >>> 24) >>> 8 = w >>> 32 := by
    intro w
    simp only [← Nat.shiftRight_add]
    exact ⟨trivial, trivial, trivial⟩
  simp only [packStep_eq r _ (show 4 * q < 1024 by omega),
    packStep_eq r _ (show 4 * q + 1 < 1024 by omega),
    packStep_eq r _ (show 4 * q + 2 < 1024 by omega),
    packStep_eq r _ (show 4 * q + 3 < 1024 by omega),
    m0, m1, m2, m3, i0, i1, i2, i3, hj, rd_getD r q (by omega), Option.some_bind,
    Option.map_some', if_true, one_ne_zero, if_false, OfNat.ofNat_ne_zero]
  rw [wr_nat _ _ _ (by omega)]
  simp only [Option.some_bind]
  rw [wr_nat _ _ _ (by simp; omega)]
  simp only [Option.some_bind]
  rw [wr_nat _ _ _ (by simp; omega)]
  simp only [Option.some_bind]
  rw [wr_nat _ _ _ (by simp; omega)]
  simp only [Option.some_bind, (s8 _).1, (s8 _).2.1, (s8 _).2.2]

theorem beBytes_getElem? (r : List Nat) (q t : Nat) (hq : q < r.length) (ht : t < 4) :
    (beBytes r)[4 * q + t]? = (beOctets (r.getD q 0))[t]? := by
  induction r generalizing q with
  | nil => simp at hq
  | cons w r ih =>
    have hc : beBytes (w :: r) = beOctets w ++ beBytes r := by simp [beBytes]
    have hl : (beOctets w).length = 4 := rfl
    rw [hc]
    cases q with
    | zero =>
      rw [List.getElem?_append_left (by omega)]
      simp
    | succ q =>
      rw [List.getElem?_append_right (by omega)]
      have : 4 * (q + 1) + t - (beOctets w).length = 4 * q + t := by omega
      rw [this, ih q (by simpa using hq)]
      simp

theorem beBytes_length (r : List Nat) : (beBytes r).length = 4 * r.length := by
  induction r with
  | nil => rfl
  | cons w r ih =>
    have hc : beBytes (w :: r) = beOctets w ++ beBytes r := by simp [beBytes]
    have hl : (beOctets w).length = 4 := rfl
    rw [hc, List.length_append, ih, hl, List.length_cons]
    omega


theorem pack_inv (r : List Nat) (hr : r.length = 256) (v0 : Nat) (be0 : List Nat)
    (hbe0 : be0.length = 1024) (q : Nat) (hq : q ≤ 256) :
    ∃ st, forLoop (packStep r) (4 * q) { v := v0, j := 0, be := be0 } = some st
      ∧ PackInv r q st := by
  induction q with
  | zero => exact ⟨_, rfl, by simp [PackInv, hbe0]⟩
  | succ q ih =>
    obtain ⟨st, hst, hj, hlen, hk⟩ := ih (by omega)
    refine ⟨{ v := r.getD q 0 >>> 32, j := (q : Int) + 1,
               be := (((st.be.set (4 * q + 3) (r.getD q 0 % 256)).set (4 * q + 2)
                  ((r.getD q 0 >>> 8) % 256)).set (4 * q + 1)
                  ((r.getD q 0 >>> 16) % 256)).set (4 * q) ((r.getD q 0 >>> 24) % 256) }, ?_, ?_⟩
    · rw [forLoop_four, hst]
      exact packStep_block r q (by omega) hr st hj hlen
    · refine ⟨by simp, by simp [hlen], ?_⟩
      intro i hi
      by_cases h : i < 4 * q
      · simp only [List.getElem?_set]
        rw [if_neg (by omega), if_neg (by omega), if_neg (by omega), if_neg (by omega)]
        exact hk i h
      · obtain ⟨t, ht, rfl⟩ : ∃ t, t < 4 ∧ i = 4 * q + t := ⟨i - 4 * q, by omega, by omega⟩
        rw [beBytes_getElem? r q t (by omega) ht]
        simp only [List.getElem?_set, List.length_set, hlen, beOctets]
        interval_cases t <;> simp <;> omega

theorem packLoop_eq (r : List Nat) (hr : r.length = 256) (v0 : Nat) (be0 : List Nat)
    (hbe0 : be0.length = 1024) :
    packLoop v0 r be0 = some (beBytes r) := by
  obtain ⟨st, hst, -, hlen, hk⟩ := pack_inv r hr v0 be0 hbe0 256 (le_refl _)
  have h4 : DIM_be = 4 * 256 := by decide
  rw [packLoop, h4, hst]
  simp only [Option.map_some', Option.some.injEq]
  apply List.ext_getElem?
  intro k
  by_cases hk2 : k < 1024
  · exact hk k (by omega)
  · rw [List.getElem?_eq_none (by omega),
      List.getElem?_eq_none (by rw [beBytes_length]; omega)]


/-! ## The two serialisations are mutually inverse -/

theorem idx_shift (u : Nat) (h : u < 0x100000000) (k : Nat) (hk : k = 2 ∨ k = 10) :
    intAnd (toInt32 u >>> k) 0xff = (((u >>> k) % 256 : Nat) : Int) := by
  rw [intAnd_ff, Int.shiftRight_eq_div_pow, Nat.shiftRight_eq_div_pow]
  unfold toInt32
  rcases hk with rfl | rfl <;> (split <;> omega)

theorem intAnd_add128 (i : Nat) : intAnd ((i : Int) + 128) 0xff = (((i + 128) % 256 : Nat) : Int) := by
  rw [intAnd_ff]
  omega

theorem shift_select (i : Nat) :
    ∃ lb : Int, (if 0 ≤ intAnd i 3 then lshift[(intAnd i 3).toNat]? else none) = some lb
      ∧ ∀ a : Nat, (if lb > 0 then (a <<< lb.toNat) % 0x100000000 else a >>> (-lb).toNat)
          = shSpec i a := by
  rw [intAnd_three]
  have h4 : i % 4 < 4 := Nat.mod_lt _ (by decide)
  unfold shSpec
  interval_cases h : i % 4
  · exact ⟨13, by simp [lshift], fun a => by simp⟩
  · exact ⟨-6, by simp [lshift], fun a => by simp⟩
  · exact ⟨2, by simp [lshift], fun a => by simp⟩
  · exact ⟨-16, by simp [lshift], fun a => by simp⟩

theorem shSpec_lt (i a : Nat) (ha : a < 2 ^ 32) : shSpec i a < 2 ^ 32 := by
  unfold shSpec
  have h6 : a >>> 6 ≤ a := by rw [Nat.shiftRight_eq_div_pow]; exact Nat.div_le_self _ _
  have h16 : a >>> 16 ≤ a := by rw [Nat.shiftRight_eq_div_pow]; exact Nat.div_le_self _ _
  split
  · exact Nat.mod_lt _ (by decide)
  · omega
  · exact Nat.mod_lt _ (by decide)
  · omega

theorem step_eq (i : Nat) (hi : i < 256) (e : Engine) (he : e.WF) :
    step i e = some (stepSpec i e) ∧ (stepSpec i e).WF := by
  obtain ⟨ha, hb, hc, hs, hr, hw⟩ := he
  have hw2 := getD_lt_of_forall (by decide : 0 < 2 ^ 32) hw
  obtain ⟨lb, h1, h2⟩ := shift_select i
  have hx : (e.a ^^^ shSpec i e.a) % 2 ^ 32 = e.a ^^^ shSpec i e.a :=
    Nat.mod_eq_of_lt (Nat.xor_lt_two_pow ha (shSpec_lt i e.a ha))
  have hsi := hw2 i
  constructor
  · unfold step stepSpec
    rw [h1]
    simp only [Option.some_bind, h2, intAnd_add128, rd_getD e.s _ (show (i + 128) % 256 < e.s.length by omega),
      rd_getD e.s i (by omega),
      wr_nat e.s i _ (by omega), wr_nat e.r i _ (by omega), hx]
    rw [idx_shift _ hsi 2 (Or.inl rfl)]
    rw [rd_getD e.s _ (show (e.s.getD i 0 >>> 2) % 256 < e.s.length by omega)]
    simp only [Option.some_bind]
    rw [idx_shift _ (Nat.mod_lt _ (by decide)) 10 (Or.inr rfl), rd_getD _ _ (by simp; omega)]
    simp only [Option.some_bind, ofInt32_toInt32 hsi]
    norm_num
  · refine ⟨Nat.mod_lt _ (by decide), Nat.mod_lt _ (by decide), hc, by simp [stepSpec, hs],
      by simp [stepSpec, hr], ?_⟩
    intro w hmem
    rcases List.mem_or_eq_of_mem_set hmem with h | h
    · exact hw w h
    · rw [h]; exact Nat.mod_lt _ (by decide)


theorem steps_eq (e0 : Engine) (h0 : e0.WF) (n : Nat) (hn : n ≤ 256) :
    forLoop step n e0 = some ((List.range n).foldl (fun st i => stepSpec i st) e0)
      ∧ ((List.range n).foldl (fun st i => stepSpec i st) e0).WF := by
  induction n with
  | zero => exact ⟨rfl, h0⟩
  | succ n ih =>
    obtain ⟨h1, h2⟩ := ih (by omega)
    have h3 := step_eq n (by omega) _ h2
    rw [forLoop_succ, h1, List.range_succ, List.foldl_append]
    exact h3

theorem round_eq (e : Engine) (he : e.WF) : round e = some (roundSpec e) ∧ (roundSpec e).WF := by
  obtain ⟨ha, hb, hc, hs, hr, hw⟩ := he
  have h0 : Engine.WF { e with b := (e.b + (e.c + 1) % 2 ^ 32) % 2 ^ 32, c := (e.c + 1) % 2 ^ 32 } :=
    ⟨ha, Nat.mod_lt _ (by decide), Nat.mod_lt _ (by decide), hs, hr, hw⟩
  have h := steps_eq _ h0 256 (le_refl _)
  have e2 : (4294967296 : Nat) = 2 ^ 32 := by norm_num
  unfold round roundSpec
  rw [e2]
  exact h

theorem roundSpec_iterate_WF (e : Engine) (he : e.WF) (k : Nat) : (roundSpec^[k] e).WF := by
  induction k with
  | zero => exact he
  | succ k ih =>
    rw [Function.iterate_succ_apply']
    exact (round_eq _ ih).2

theorem roundsFrom_eq (e : Engine) (he : e.WF) (k : Nat) :
    roundsFrom e k = some (roundSpec^[k] e) := by
  induction k with
  | zero => rfl
  | succ k ih =>
    rw [roundsFrom, ih, Function.iterate_succ_apply', Option.some_bind]
    exact (round_eq _ (roundSpec_iterate_WF e he k)).1

/-! ## The generate loop -/

theorem streamFrom_length (e : Engine) (he : e.WF) (K : Nat) :
    (streamFrom e K).length = 1024 * K := by
  induction K generalizing e with
  | zero => rfl
  | succ K ih =>
    have hw := (round_eq e he).2
    rw [streamFrom, List.length_append, ih _ hw, beBytes_length, hw.2.2.2.2.1]
    omega

theorem generate_cons (p : Platform) (w : WriteResult) (ws : List WriteResult) (e : Engine)
    (be : List Nat) (n : Nat) (out : List Nat) (e1 : Engine) (h1 : round e = some e1)
    (be1 : List Nat) (h2 : packLoop p.junk e1.r be = some be1) :
    generate p (w :: ws) e be n out =
      if w.ret ≠ sizeof_be then
        if (w.ferr && w.errno == p.EPIPE) = true then
          { status := .returned, usage := false, rounds := n + 1, out := out ++ be1.take w.ret }
        else
          { status := .aborted, usage := false, rounds := n + 1, out := out ++ be1.take w.ret }
      else generate p ws e1 be1 (n + 1) (out ++ be1) := by
  rw [generate, h1, Option.some_bind, h2, Option.map_some', Option.getD_some]

theorem generate_full (p : Platform) (ws : List WriteResult) (hws : ∀ w ∈ ws, w.ret = 1024)
    (e : Engine) (he : e.WF) (be : List Nat) (hbe : be.length = 1024) (n : Nat) (out : List Nat) :
    generate p ws e be n out
      = { status := .running, usage := false, rounds := n + ws.length,
          out := out ++ streamFrom e ws.length } := by
  induction ws generalizing e be n out with
  | nil => rw [generate, List.length_nil, streamFrom, List.append_nil, Nat.add_zero]
  | cons w ws ih =>
    obtain ⟨h1, h2⟩ := round_eq e he
    have hr : w.ret = sizeof_be := hws w (List.mem_cons_self _ _)
    rw [generate_cons p _ _ e be n out _ h1 _ (packLoop_eq _ h2.2.2.2.2.1 _ _ hbe)]
    simp only [hr, ne_eq, not_true_eq_false, if_false]
    rw [ih (fun u hu => hws u (List.mem_cons_of_mem _ hu)) _ h2 _
      (by rw [beBytes_length, h2.2.2.2.2.1])]
    have hn : n + 1 + ws.length = n + (w :: ws).length := by rw [List.length_cons]; omega
    rw [hn, List.length_cons, streamFrom, List.append_assoc]

theorem generate_stop (p : Platform) (pre : List WriteResult) (hpre : ∀ w ∈ pre, w.ret = 1024)
    (w : WriteResult) (hw : w.ret ≠ 1024) (rest : List WriteResult)
    (e : Engine) (he : e.WF) (be : List Nat) (hbe : be.length = 1024) (n : Nat) (out : List Nat) :
    generate p (pre ++ w :: rest) e be n out
      = { status := if w.ferr = true ∧ w.errno = p.EPIPE then .returned else .aborted,
          usage := false, rounds := n + pre.length + 1,
          out := out ++ streamFrom e pre.length
                  ++ (beBytes (roundSpec^[pre.length + 1] e).r).take w.ret } := by
  induction pre generalizing e be n out with
  | nil =>
    obtain ⟨h1, h2⟩ := round_eq e he
    have hr : w.ret ≠ sizeof_be := hw
    rw [List.nil_append, generate_cons p _ _ e be n out _ h1 _ (packLoop_eq _ h2.2.2.2.2.1 _ _ hbe)]
    simp only [hr, ne_eq, not_false_eq_true, if_true]
    have hb : ((w.ferr && w.errno == p.EPIPE) = true) ↔ (w.ferr = true ∧ w.errno = p.EPIPE) := by
      rw [Bool.and_eq_true, beq_iff_eq]
    simp only [hb, List.length_nil, streamFrom, List.append_nil, Nat.add_zero,
      Function.iterate_succ_apply, Function.iterate_zero_apply]
    split <;> rfl
  | cons u pre ih =>
    obtain ⟨h1, h2⟩ := round_eq e he
    have hr : u.ret = sizeof_be := hpre u (List.mem_cons_self _ _)
    rw [List.cons_append, generate_cons p _ _ e be n out _ h1 _ (packLoop_eq _ h2.2.2.2.2.1 _ _ hbe)]
    simp only [hr, ne_eq, not_true_eq_false, if_false]
    rw [ih (fun x hx => hpre x (List.mem_cons_of_mem _ hx)) _ h2 _
      (by rw [beBytes_length, h2.2.2.2.2.1])]
    have hn : n + 1 + pre.length + 1 = n + (u :: pre).length + 1 := by
      rw [List.length_cons]; omega
    rw [hn, List.length_cons, streamFrom, Function.iterate_succ_apply roundSpec (pre.length + 1) e]
    simp only [List.append_assoc]


/-! ## Start-up: argument check, `fread`, seed unpacking -/

theorem fread_count (buf : List Nat) (n : Nat) (stdin : List Nat) :
    (fread buf n stdin).2 = min n stdin.length := by
  simp [fread]

theorem fread_buf (stdin : List Nat) (h : 1024 ≤ stdin.length) :
    (fread (zeros sizeof_be) sizeof_s stdin).1 = stdin.take 1024 := by
  have h1 : sizeof_s = 1024 := rfl
  have h2 : (stdin.take 1024).length = 1024 := by rw [List.length_take]; omega
  have h3 : (zeros sizeof_be).length = 1024 := by rw [zeros, List.length_replicate]; rfl
  simp only [fread, h1, h2]
  rw [List.drop_of_length_le (by omega), List.append_nil]

theorem take_isBuf (stdin : List Nat) (h : 1024 ≤ stdin.length) (hb : ∀ x ∈ stdin, x < 256) :
    IsBuf (stdin.take 1024) :=
  ⟨by rw [List.length_take]; omega, fun x hx => hb x (List.mem_of_mem_take hx)⟩

theorem beWord_lt (be : List Nat) (hb : ∀ k, be.getD k 0 < 256) (j : Nat) :
    beWord be j < 2 ^ 32 := by
  have b0 := hb (4 * j)
  have b1 := hb (4 * j + 1)
  have b2 := hb (4 * j + 2)
  have b3 := hb (4 * j + 3)
  unfold beWord
  simp only [List.getD_eq_getElem?_getD] at b0 b1 b2 b3 ⊢
  norm_num
  omega

theorem zeros_length (n : Nat) : (zeros n).length = n := by
  rw [zeros, List.length_replicate]

theorem wordsOf_length (be : List Nat) : (wordsOf be).length = 256 := by
  rw [wordsOf, List.length_map, List.length_range]

theorem seedEngine_WF (be : List Nat) (hbe : IsBuf be) : (seedEngine be).WF := by
  have hb2 := getD_lt_of_forall (by decide : 0 < 256) hbe.2
  have h0 : (0 : Nat) < 2 ^ 32 := by norm_num
  refine ⟨h0, h0, h0, wordsOf_length be, zeros_length 256, ?_⟩
  intro w hw
  simp only [seedEngine, wordsOf, List.mem_map] at hw
  obtain ⟨j, -, rfl⟩ := hw
  exact beWord_lt be hb2 j

theorem boot_eq (v0 : Nat) (be : List Nat) (hbe : IsBuf be) :
    boot v0 be = some (seedEngine be) := by
  have hb2 := getD_lt_of_forall (by decide : 0 < 256) hbe.2
  rw [boot, loadSeed_eq be hbe.1 hb2 v0 _ (zeros_length 256)]
  rfl

theorem main_usage (p : Platform) (argc : Int) (stdin : List Nat) (ws : List WriteResult)
    (h : argc > 1 ∨ stdin.length < 1024) : main p argc stdin ws = usageAbort := by
  have hc : argc > 1 ∨ (fread (zeros sizeof_be) sizeof_s stdin).2 ≠ sizeof_be := by
    rcases h with h | h
    · exact Or.inl h
    · right
      rw [fread_count]
      have h1 : sizeof_s = 1024 := rfl
      have h2 : sizeof_be = 1024 := rfl
      omega
  rw [main, if_pos hc]
  rfl

theorem main_run (p : Platform) (argc : Int) (stdin : List Nat) (ws : List WriteResult)
    (ha : argc ≤ 1) (hl : 1024 ≤ stdin.length) (hb : ∀ x ∈ stdin, x < 256) :
    main p argc stdin ws
      = generate p ws (seedEngine (stdin.take 1024)) (stdin.take 1024) 0 [] := by
  have hc : ¬ (argc > 1 ∨ (fread (zeros sizeof_be) sizeof_s stdin).2 ≠ sizeof_be) := by
    rw [fread_count]
    have h1 : sizeof_s = 1024 := rfl
    have h2 : sizeof_be = 1024 := rfl
    omega
  rw [main, if_neg hc, fread_buf stdin hl, boot_eq _ _ (take_isBuf stdin hl hb)]


theorem beBytes_octet (r : List Nat) (j k : Nat) (hj : j < r.length) (hk : k < 4) :
    (beBytes r)[4 * j + k]? = some ((r.getD j 0 >>> (8 * (3 - k))) % 256) := by
  rw [beBytes_getElem? r j k hj hk]
  interval_cases k <;> simp [beOctets]

theorem zeros_isBuf : IsBuf (zeros 1024) :=
  ⟨zeros_length 1024, fun x hx => by rw [List.eq_of_mem_replicate hx]; norm_num⟩

/-- The start-up check in full: the usage-error abort is taken exactly when there
is an argument or fewer than 1024 octets are available; otherwise one round is
run per accepted block, and the run is the run on the first 1024 octets of
standard input, later octets are never read. -/
theorem main_first_1024 (p : Platform) (argc : Int) (stdin : List Nat)
    (ws : List WriteResult) (hb : ∀ x ∈ stdin, x < 256) (hws : ∀ w ∈ ws, w.ret = 1024) :
    ((main p argc stdin ws).usage = true ↔ (argc > 1 ∨ stdin.length < 1024))
      ∧ ((main p argc stdin ws).status = .aborted ↔ (argc > 1 ∨ stdin.length < 1024))
      ∧ (main p argc stdin ws).rounds
          = (if argc > 1 ∨ stdin.length < 1024 then 0 else ws.length)
      ∧ (main p argc stdin ws).out.length
          = (if argc > 1 ∨ stdin.length < 1024 then 0 else 1024 * ws.length)
      ∧ main p argc stdin ws = main p argc (stdin.take 1024) ws := by
  by_cases hc : argc > 1 ∨ stdin.length < 1024
  · have hc2 : argc > 1 ∨ (stdin.take 1024).length < 1024 := by
      rcases hc with h | h
      · exact Or.inl h
      · right; rw [List.length_take]; omega
    rw [main_usage p argc stdin ws hc, main_usage p argc _ ws hc2, if_pos hc, if_pos hc]
    simp [usageAbort, hc]
  · have ha : argc ≤ 1 := by omega
    have hl : 1024 ≤ stdin.length := by omega
    have hbuf := take_isBuf stdin hl hb
    have hl2 : 1024 ≤ (stdin.take 1024).length := by rw [hbuf.1]
    rw [main_run p argc _ ws ha hl2 (fun x hx => hb x (List.mem_of_mem_take hx)),
      List.take_take, Nat.min_self, main_run p argc stdin ws ha hl hb,
      generate_full p ws hws _ (seedEngine_WF _ hbuf) _ hbuf.1, if_neg hc, if_neg hc]
    simp [hc, streamFrom_length _ (seedEngine_WF _ hbuf)]

theorem ramp_length : ramp.length = 1024 := by
  rw [ramp, List.length_map, List.length_range]

theorem ramp_getD (k : Nat) (h : k < 1024) : ramp.getD k 0 = k % 256 := by
  rw [List.getD_eq_getElem?_getD, ramp, List.getElem?_map, List.getElem?_range h]
  rfl

theorem ramp_isBuf : IsBuf ramp := by
  refine ⟨ramp_length, ?_⟩
  intro x hx
  rw [ramp, List.mem_map] at hx
  obtain ⟨i, -, rfl⟩ := hx
  exact Nat.mod_lt _ (by decide)

/-! ## The claims -/

/-- C1: one round of the code equals the reference round of spec 4.2 on every
well-formed engine state: the counter update `c := c + 1`, `b := b + c` followed
by the 256 steps in order, all arithmetic modulo 2^32; the resulting
`(a, b, c, s, r)` coincide. -/
theorem round_refines_roundSpec (e : Engine) (he : e.WF) : round e = some (roundSpec e) :=
  (round_eq e he).1

/-- Witness for C1 at a state whose words are negative when held in an `int`. -/
theorem round_refines_roundSpec_witness :
    Engine.WF ⟨0xffffffff, 0x80000000, 0xffffffff, List.replicate 256 0xdeadbeef, zeros 256⟩
      ∧ round ⟨0xffffffff, 0x80000000, 0xffffffff, List.replicate 256 0xdeadbeef, zeros 256⟩
        = some (roundSpec
            ⟨0xffffffff, 0x80000000, 0xffffffff, List.replicate 256 0xdeadbeef, zeros 256⟩) :=
  have h : Engine.WF
      ⟨0xffffffff, 0x80000000, 0xffffffff, List.replicate 256 0xdeadbeef, zeros 256⟩ :=
    ⟨by norm_num, by norm_num, by norm_num, List.length_replicate _ _, zeros_length 256,
      fun w hw => by rw [List.eq_of_mem_replicate hw]; norm_num⟩
  ⟨h, round_refines_roundSpec _ h⟩

/-- C6: length validation: with no command-line argument and fewer than 1024
octets on standard input (the empty input included) the program writes the usage
text and aborts; no round is run and no octet is written, whatever the output
side would have accepted. -/
theorem short_seed_aborts (p : Platform) (argc : Int) (stdin : List Nat) (ws : List WriteResult)
    (_hargc : argc ≤ 1) (hlen : stdin.length < 1024) :
    main p argc stdin ws = { status := .aborted, usage := true, rounds := 0, out := [] } :=
  main_usage p argc stdin ws (Or.inr hlen)

/-- Witness for C6: the empty input. -/
theorem short_seed_aborts_witness :
    (1 : Int) ≤ 1 ∧ ([] : List Nat).length < 1024
      ∧ main ⟨32, 0⟩ 1 [] [⟨1024, false, 0⟩]
          = { status := .aborted, usage := true, rounds := 0, out := [] } :=
  ⟨by decide, by decide, short_seed_aborts ⟨32, 0⟩ 1 [] [⟨1024, false, 0⟩] (by decide) (by decide)⟩

/-- C7, the code at an input that is not exactly 1024 octets long: with 1025
octets on standard input and no argument the program does not take the
usage-error path; it runs a round and delivers a full block of 1024 octets. -/
theorem longer_seed_accepted :
    (zeros 1025).length ≠ 1024
      ∧ (main ⟨32, 0⟩ 1 (zeros 1025) [⟨1024, false, 0⟩]).status = .running
      ∧ (main ⟨32, 0⟩ 1 (zeros 1025) [⟨1024, false, 0⟩]).usage = false
      ∧ (main ⟨32, 0⟩ 1 (zeros 1025) [⟨1024, false, 0⟩]).rounds = 1
      ∧ (main ⟨32, 0⟩ 1 (zeros 1025) [⟨1024, false, 0⟩]).out.length = 1024 := by
  have hl : (zeros 1025).length = 1025 := zeros_length 1025
  have ht : (zeros 1025).take 1024 = zeros 1024 := by
    rw [zeros, zeros, List.take_replicate]
    rfl
  have hb : ∀ x ∈ zeros 1025, x < 256 := fun x hx => by
    rw [List.eq_of_mem_replicate hx]; norm_num
  have hm : main ⟨32, 0⟩ 1 (zeros 1025) [⟨1024, false, 0⟩]
      = { status := .running, usage := false, rounds := 1,
          out := streamFrom (seedEngine (zeros 1024)) 1 } := by
    rw [main_run ⟨32, 0⟩ 1 (zeros 1025) _ (by decide) (by rw [hl]; decide) hb, ht,
      generate_full ⟨32, 0⟩ _ (fun w hw => by rw [List.mem_singleton.mp hw])
        _ (seedEngine_WF _ zeros_isBuf) _ zeros_isBuf.1, List.length_singleton, Nat.zero_add,
      List.nil_append]
  rw [hm]
  exact ⟨by rw [hl]; decide, rfl, rfl, rfl, streamFrom_length _ (seedEngine_WF _ zeros_isBuf) 1⟩

/-- C8: arguments are rejected: with `argc > 1` the program writes the usage text
and aborts without reading the input, running a round or writing an octet,
whatever standard input holds. -/
theorem argument_aborts (p : Platform) (argc : Int) (stdin : List Nat) (ws : List WriteResult)
    (hargc : argc > 1) :
    main p argc stdin ws = { status := .aborted, usage := true, rounds := 0, out := [] } :=
  main_usage p argc stdin ws (Or.inl hargc)

/-- Witness for C8: one argument and a valid all-zero seed. -/
theorem argument_aborts_witness :
    (2 : Int) > 1
      ∧ main ⟨32, 0⟩ 2 (zeros 1024) [⟨1024, false, 0⟩]
          = { status := .aborted, usage := true, rounds := 0, out := [] } :=
  ⟨by decide, argument_aborts ⟨32, 0⟩ 2 (zeros 1024) [⟨1024, false, 0⟩] (by decide)⟩

/-- C9: write-failure handling is binary. For a valid seed and no argument: a
write that is not accepted in full ends the run, with success (return from
`main`) when the error indicator of `stdout` is set and `errno` is `EPIPE`, and
with `abort()` in every other case, whatever the earlier fully accepted writes
were; as long as every write is accepted in full the program keeps running. So
`K` full blocks followed by a broken pipe end the run with success. -/
theorem write_failure_binary (p : Platform) (argc : Int) (seed : List Nat)
    (pre : List WriteResult) (w : WriteResult) (rest : List WriteResult)
    (hargc : argc ≤ 1) (hseed : IsBuf seed) (hpre : ∀ u ∈ pre, u.ret = 1024)
    (hw : w.ret ≠ 1024) :
    (main p argc seed (pre ++ w :: rest)).status
        = (if w.ferr = true ∧ w.errno = p.EPIPE then .returned else .aborted)
      ∧ (main p argc seed (pre ++ w :: rest)).rounds = pre.length + 1
      ∧ (main p argc seed pre).status = .running := by
  have hl : 1024 ≤ seed.length := by rw [hseed.1]
  have ht : seed.take 1024 = seed := List.take_of_length_le (by rw [hseed.1])
  rw [main_run p argc seed _ hargc hl hseed.2, main_run p argc seed _ hargc hl hseed.2, ht,
    generate_stop p pre hpre w hw rest _ (seedEngine_WF _ hseed) _ hseed.1,
    generate_full p pre hpre _ (seedEngine_WF _ hseed) _ hseed.1]
  exact ⟨rfl, by rw [Nat.zero_add], rfl⟩

/-- Witness for C9: two accepted blocks, then a broken pipe. -/
theorem write_failure_binary_witness :
    (1 : Int) ≤ 1 ∧ IsBuf (zeros 1024)
      ∧ (∀ u ∈ [(⟨1024, false, 0⟩ : WriteResult), ⟨1024, false, 0⟩], u.ret = 1024)
      ∧ (⟨0, true, 32⟩ : WriteResult).ret ≠ 1024
      ∧ (main ⟨32, 0⟩ 1 (zeros 1024)
            ([⟨1024, false, 0⟩, ⟨1024, false, 0⟩] ++ ⟨0, true, 32⟩ :: [])).status = .returned :=
  have hpre : ∀ u ∈ [(⟨1024, false, 0⟩ : WriteResult), ⟨1024, false, 0⟩], u.ret = 1024 := by
    decide
  ⟨by decide, zeros_isBuf, hpre, by decide,
    (write_failure_binary ⟨32, 0⟩ 1 (zeros 1024) _ ⟨0, true, 32⟩ [] (by decide) zeros_isBuf hpre
      (by decide)).1⟩

theorem writes_split (ws : List WriteResult) :
    (∀ w ∈ ws, w.ret = 1024) ∨
      ∃ pre w rest, ws = pre ++ w :: rest ∧ (∀ u ∈ pre, u.ret = 1024) ∧ w.ret ≠ 1024 := by
  induction ws with
  | nil => exact Or.inl (fun w hw => absurd hw (List.not_mem_nil w))
  | cons u ws ih =>
    by_cases hu : u.ret = 1024
    · rcases ih with h | ⟨pre, w, rest, h1, h2, h3⟩
      · left
        intro w hw
        rcases List.mem_cons.mp hw with h4 | h4
        · rw [h4]; exact hu
        · exact h w h4
      · right
        refine ⟨u :: pre, w, rest, by rw [h1, List.cons_append], ?_, h3⟩
        intro x hx
        rcases List.mem_cons.mp hx with h4 | h4
        · rw [h4]; exact hu
        · exact h2 x h4
    · exact Or.inr ⟨[], u, ws, rfl, fun x hx => absurd hx (List.not_mem_nil x), hu⟩

theorem counterUpdate_WF (e : Engine) (he : e.WF) : (counterUpdate e).WF :=
  ⟨he.1, Nat.mod_lt _ (by decide), Nat.mod_lt _ (by decide), he.2.2.2.1, he.2.2.2.2.1,
    he.2.2.2.2.2⟩

theorem roundSpec_stepsSpec (e : Engine) : roundSpec e = stepsSpec 256 (counterUpdate e) := rfl

theorem stepsSpec_zero (e : Engine) : stepsSpec 0 e = e := rfl

theorem stepsSpec_succ (n : Nat) (e : Engine) :
    stepsSpec (n + 1) e = stepSpec n (stepsSpec n e) := by
  unfold stepsSpec
  rw [List.range_succ, List.foldl_append]
  rfl

theorem forLoop_steps (e : Engine) (he : e.WF) (n : Nat) (hn : n ≤ 256) :
    forLoop step n e = some (stepsSpec n e) ∧ (stepsSpec n e).WF :=
  steps_eq e he n hn

theorem stepSpec_c (i : Nat) (e : Engine) : (stepSpec i e).c = e.c := rfl

theorem stepSpec_s_ne (i k : Nat) (e : Engine) (h : k ≠ i) : (stepSpec i e).s[k]? = e.s[k]? := by
  show (e.s.set i _)[k]? = e.s[k]?
  rw [List.getElem?_set, if_neg (fun h2 => h h2.symm)]

theorem stepSpec_r_ne (i k : Nat) (e : Engine) (h : k ≠ i) : (stepSpec i e).r[k]? = e.r[k]? := by
  show (e.r.set i _)[k]? = e.r[k]?
  rw [List.getElem?_set, if_neg (fun h2 => h h2.symm)]

theorem stepSpec_r_self (i : Nat) (e : Engine) (h : i < e.r.length) :
    (stepSpec i e).r[i]? = some (stepSpec i e).b := by
  show (e.r.set i _)[i]? = some _
  rw [List.getElem?_set, if_pos rfl, if_pos h]
  rfl

theorem stepSpec_s_self (i : Nat) (e : Engine) (h : i < e.s.length) :
    (stepSpec i e).s[i]? = some (((stepSpec i e).a + e.b
        + e.s.getD ((e.s.getD i 0 >>> 2) % 256) 0) % 2 ^ 32) := by
  show (e.s.set i _)[i]? = some _
  rw [List.getElem?_set, if_pos rfl, if_pos h]
  rfl

theorem stepsSpec_c (n : Nat) (e : Engine) : (stepsSpec n e).c = e.c := by
  induction n with
  | zero => rfl
  | succ n ih => rw [stepsSpec_succ, stepSpec_c, ih]

theorem stepsSpec_s_done (e : Engine) (k n : Nat) (hk : k < n) :
    (stepsSpec n e).s[k]? = (stepsSpec (k + 1) e).s[k]? := by
  induction n with
  | zero => omega
  | succ n ih =>
    by_cases h : k = n
    · rw [h]
    · rw [stepsSpec_succ, stepSpec_s_ne n k _ h, ih (by omega)]

theorem stepsSpec_r_done (e : Engine) (k n : Nat) (hk : k < n) :
    (stepsSpec n e).r[k]? = (stepsSpec (k + 1) e).r[k]? := by
  induction n with
  | zero => omega
  | succ n ih =>
    by_cases h : k = n
    · rw [h]
    · rw [stepsSpec_succ, stepSpec_r_ne n k _ h, ih (by omega)]

theorem roundSpec_c (e : Engine) : (roundSpec e).c = (e.c + 1) % 2 ^ 32 := by
  rw [roundSpec_stepsSpec, stepsSpec_c]
  rfl

theorem roundSpec_iterate_c (e : Engine) (n : Nat) :
    (roundSpec^[n] e).c = (e.c + n) % 2 ^ 32 ∨ n = 0 := by
  induction n with
  | zero => exact Or.inr rfl
  | succ n ih =>
    left
    rw [Function.iterate_succ_apply', roundSpec_c]
    rcases ih with h | h
    · rw [h]; omega
    · rw [h, Function.iterate_zero_apply]

theorem seedEngine_iterate_c (be : List Nat) (n : Nat) :
    (roundSpec^[n] (seedEngine be)).c = n % 2 ^ 32 := by
  rcases roundSpec_iterate_c (seedEngine be) n with h | h
  · rw [h]
    show (0 + n) % 2 ^ 32 = n % 2 ^ 32
    rw [Nat.zero_add]
  · rw [h, Function.iterate_zero_apply]
    rfl

/-- C15: the counter. After `k` rounds `c` equals `k mod 2^32`, whatever the
seed; hence for `m < n < 2^32` the generator states `(a, b, c, s)` after `m`
rounds and after `n` rounds differ. -/
theorem counter_min_cycle (v0 : Nat) (seed : List Nat) (m n : Nat) (hseed : IsBuf seed)
    (hmn : m < n) (hn : n < 2 ^ 32) :
    ∃ e0, boot v0 seed = some e0
      ∧ (∀ k, ∃ ek, roundsFrom e0 k = some ek ∧ ek.c = k % 2 ^ 32)
      ∧ ∃ em en, roundsFrom e0 m = some em ∧ roundsFrom e0 n = some en
          ∧ em.core ≠ en.core := by
  have hwf := seedEngine_WF _ hseed
  refine ⟨seedEngine seed, boot_eq v0 seed hseed,
    fun k => ⟨_, roundsFrom_eq _ hwf k, seedEngine_iterate_c seed k⟩,
    _, _, roundsFrom_eq _ hwf m, roundsFrom_eq _ hwf n, ?_⟩
  intro h
  have hc : (roundSpec^[m] (seedEngine seed)).c = (roundSpec^[n] (seedEngine seed)).c :=
    congrArg (fun t => t.2.2.1) h
  rw [seedEngine_iterate_c, seedEngine_iterate_c, Nat.mod_eq_of_lt hn,
    Nat.mod_eq_of_lt (by omega)] at hc
  omega

/-- Witness for C15: the all-zero seed, 3 rounds against 2^32 - 1 rounds. -/
theorem counter_min_cycle_witness :
    IsBuf (zeros 1024) ∧ 3 < 4294967295 ∧ 4294967295 < 2 ^ 32
      ∧ ∃ e0, boot 5 (zeros 1024) = some e0
        ∧ (∀ k, ∃ ek, roundsFrom e0 k = some ek ∧ ek.c = k % 2 ^ 32)
        ∧ ∃ em en, roundsFrom e0 3 = some em ∧ roundsFrom e0 4294967295 = some en
            ∧ em.core ≠ en.core :=
  ⟨zeros_isBuf, by decide, by decide,
    counter_min_cycle 5 (zeros 1024) 3 4294967295 zeros_isBuf (by decide) (by decide)⟩

/-- C14: every round overwrites the whole state array, one cell per step. In a
round started from a well-formed state, step `i` leaves `c`, every `s[k]` and
every `r[k]` with `k ≠ i` as they were, stores the value `y` of that step in
`s[i]` and the new `b` in `r[i]`; after the round `s[i]` and `r[i]` still hold
what step `i` stored, and `b` equals `r[255]`. -/
theorem round_frame (e0 : Engine) (i : Nat) (he : e0.WF) (hi : i < 256) :
    ∃ epre ei ef, forLoop step i (counterUpdate e0) = some epre ∧ step i epre = some ei
      ∧ round e0 = some ef
      ∧ ei.c = epre.c
      ∧ (∀ k, k ≠ i → ei.s[k]? = epre.s[k]? ∧ ei.r[k]? = epre.r[k]?)
      ∧ ei.s[i]? = some ((ei.a + epre.b + epre.s.getD ((epre.s.getD i 0 >>> 2) % 256) 0)
                          % 2 ^ 32)
      ∧ ei.r[i]? = some ei.b
      ∧ ef.s[i]? = ei.s[i]? ∧ ef.r[i]? = ei.r[i]? ∧ ef.r[255]? = some ef.b
      ∧ ef.c = (counterUpdate e0).c := by
  have hcu := counterUpdate_WF e0 he
  obtain ⟨h1, w1⟩ := forLoop_steps _ hcu i (by omega)
  obtain ⟨h2, -⟩ := step_eq i hi _ w1
  obtain ⟨-, w3⟩ := forLoop_steps _ hcu 255 (by omega)
  have hf : roundSpec e0 = stepSpec 255 (stepsSpec 255 (counterUpdate e0)) := by
    rw [roundSpec_stepsSpec, ← stepsSpec_succ]
  refine ⟨stepsSpec i (counterUpdate e0), stepSpec i (stepsSpec i (counterUpdate e0)),
    roundSpec e0, h1, h2, (round_eq e0 he).1, stepSpec_c _ _,
    fun k hk => ⟨stepSpec_s_ne i k _ hk, stepSpec_r_ne i k _ hk⟩,
    stepSpec_s_self i _ (by rw [w1.2.2.2.1]; exact hi),
    stepSpec_r_self i _ (by rw [w1.2.2.2.2.1]; exact hi), ?_, ?_, ?_, ?_⟩
  · rw [roundSpec_stepsSpec, stepsSpec_s_done _ i 256 hi, stepsSpec_succ]
  · rw [roundSpec_stepsSpec, stepsSpec_r_done _ i 256 hi, stepsSpec_succ]
  · rw [hf]
    exact stepSpec_r_self 255 _ (by rw [w3.2.2.2.2.1]; decide)
  · rw [roundSpec_stepsSpec, stepsSpec_c]

/-- Witness for C14: step 200 of the round started from a state of large words. -/
theorem round_frame_witness :
    Engine.WF ⟨0xffffffff, 0x80000000, 0xffffffff, List.replicate 256 0xdeadbeef, zeros 256⟩
      ∧ 200 < 256
      ∧ ∃ epre ei ef,
          forLoop step 200 (counterUpdate
              ⟨0xffffffff, 0x80000000, 0xffffffff, List.replicate 256 0xdeadbeef, zeros 256⟩)
            = some epre
          ∧ step 200 epre = some ei
          ∧ round ⟨0xffffffff, 0x80000000, 0xffffffff, List.replicate 256 0xdeadbeef, zeros 256⟩
              = some ef
          ∧ ei.c = epre.c
          ∧ (∀ k, k ≠ 200 → ei.s[k]? = epre.s[k]? ∧ ei.r[k]? = epre.r[k]?)
          ∧ ei.s[200]? = some ((ei.a + epre.b
                + epre.s.getD ((epre.s.getD 200 0 >>> 2) % 256) 0) % 2 ^ 32)
          ∧ ei.r[200]? = some ei.b
          ∧ ef.s[200]? = ei.s[200]? ∧ ef.r[200]? = ei.r[200]? ∧ ef.r[255]? = some ef.b
          ∧ ef.c = (counterUpdate
              ⟨0xffffffff, 0x80000000, 0xffffffff, List.replicate 256 0xdeadbeef, zeros 256⟩).c :=
  have h : Engine.WF
      ⟨0xffffffff, 0x80000000, 0xffffffff, List.replicate 256 0xdeadbeef, zeros 256⟩ :=
    ⟨by norm_num, by norm_num, by norm_num, List.length_replicate _ _, zeros_length 256,
      fun w hw => by rw [List.eq_of_mem_replicate hw]; norm_num⟩
  ⟨h, by decide, round_frame _ 200 h (by decide)⟩

/-! ## Array indices stay inside their arrays -/

theorem intAnd_ff_range (x : Int) : 0 ≤ intAnd x 0xff ∧ intAnd x 0xff < 256 := by
  rw [intAnd_ff]
  omega

theorem pack_index_range (i : Nat) (hi : i < 1024) :
    0 ≤ intAnd i (~~~(3 : Int)) + (3 - intAnd i 3)
      ∧ intAnd i (~~~(3 : Int)) + (3 - intAnd i 3) < 1024 := by
  rw [pack_index i hi]
  omega

theorem loadStep_j (be : List Nat) (hbe : be.length = 1024) (n : Nat) (hn : n < 1024)
    (st : LoadSt) (hj : st.j = ((n / 4 : Nat) : Int)) (hs : st.s.length = 256) :
    ∃ st2, loadStep be n st = some st2 ∧ st2.j = (((n + 1) / 4 : Nat) : Int)
      ∧ st2.s.length = 256 := by
  unfold loadStep
  rw [rd_getD be n (by omega), intAnd_three, hj]
  simp only [Option.some_bind]
  by_cases h3 : n % 4 = 3
  · rw [if_pos (by rw [h3]; rfl), wr_nat _ _ _ (by omega)]
    refine ⟨_, rfl, ?_, by simp [hs]⟩
    show ((n / 4 : Nat) : Int) + 1 = (((n + 1) / 4 : Nat) : Int)
    omega
  · rw [if_neg (by intro h; apply h3; exact_mod_cast h)]
    refine ⟨_, rfl, ?_, hs⟩
    show ((n / 4 : Nat) : Int) = (((n + 1) / 4 : Nat) : Int)
    have : n / 4 = (n + 1) / 4 := by omega
    rw [this]

theorem load_j (be : List Nat) (hbe : be.length = 1024) (v0 : Nat) (s0 : List Nat)
    (hs0 : s0.length = 256) (n : Nat) (hn : n ≤ 1024) :
    ∃ st, forLoop (loadStep be) n { v := v0, j := 0, s := s0 } = some st
      ∧ st.j = ((n / 4 : Nat) : Int) ∧ st.s.length = 256 := by
  induction n with
  | zero => exact ⟨_, rfl, rfl, hs0⟩
  | succ n ih =>
    obtain ⟨st, h1, h2, h3⟩ := ih (by omega)
    obtain ⟨st2, h4, h5, h6⟩ := loadStep_j be hbe n (by omega) st h2 h3
    exact ⟨st2, by rw [forLoop_succ, h1, Option.some_bind, h4], h5, h6⟩

theorem packStep_j (r : List Nat) (hr : r.length = 256) (n : Nat) (hn : n < 1024)
    (st : PackSt) (hj : st.j = (((n + 3) / 4 : Nat) : Int)) (hs : st.be.length = 1024) :
    ∃ st2, packStep r n st = some st2 ∧ st2.j = (((n + 4) / 4 : Nat) : Int)
      ∧ st2.be.length = 1024 := by
  rw [packStep_eq r n hn, hj]
  by_cases h0 : n % 4 = 0
  · rw [if_pos h0, rd_getD r _ (by omega)]
    simp only [Option.map_some', Option.some_bind]
    rw [wr_nat _ _ _ (by omega)]
    refine ⟨_, rfl, ?_, by simp [hs]⟩
    show (((n + 3) / 4 : Nat) : Int) + 1 = (((n + 4) / 4 : Nat) : Int)
    omega
  · rw [if_neg h0]
    simp only [Option.some_bind]
    rw [wr_nat _ _ _ (by omega)]
    refine ⟨_, rfl, ?_, by simp [hs]⟩
    show (((n + 3) / 4 : Nat) : Int) = (((n + 4) / 4 : Nat) : Int)
    have : (n + 3) / 4 = (n + 4) / 4 := by omega
    rw [this]

theorem pack_j (r : List Nat) (hr : r.length = 256) (v0 : Nat) (be0 : List Nat)
    (hbe0 : be0.length = 1024) (n : Nat) (hn : n ≤ 1024) :
    ∃ st, forLoop (packStep r) n { v := v0, j := 0, be := be0 } = some st
      ∧ st.j = (((n + 3) / 4 : Nat) : Int) ∧ st.be.length = 1024 := by
  induction n with
  | zero => exact ⟨_, rfl, rfl, hbe0⟩
  | succ n ih =>
    obtain ⟨st, h1, h2, h3⟩ := ih (by omega)
    obtain ⟨st2, h4, h5, h6⟩ := packStep_j r hr n (by omega) st h2 h3
    exact ⟨st2, by rw [forLoop_succ, h1, Option.some_bind, h4], h5, h6⟩

theorem main_no_fault (p : Platform) (argc : Int) (stdin : List Nat) (ws : List WriteResult)
    (hb : ∀ x ∈ stdin, x < 256) : (main p argc stdin ws).status ≠ .fault := by
  by_cases hc : argc > 1 ∨ stdin.length < 1024
  · rw [main_usage p argc stdin ws hc]
    exact fun h => Status.noConfusion h
  · have ha : argc ≤ 1 := by omega
    have hl : 1024 ≤ stdin.length := by omega
    have hbuf := take_isBuf stdin hl hb
    have hwf := seedEngine_WF _ hbuf
    rw [main_run p argc stdin ws ha hl hb]
    rcases writes_split ws with h | ⟨pre, w, rest, h1, h2, h3⟩
    · rw [generate_full p ws h _ hwf _ hbuf.1]
      exact fun h => Status.noConfusion h
    · rw [h1, generate_stop p pre h2 w h3 rest _ hwf _ hbuf.1]
      show (if w.ferr = true ∧ w.errno = p.EPIPE then Status.returned else Status.aborted)
        ≠ Status.fault
      split <;> exact fun h => Status.noConfusion h

/-- C16: all array indexing is in bounds. The masked indices `(i + 128) & 0xff`,
`x >> 2 & 0xff` and `y >> 10 & 0xff` lie in 0..255 for every `int` value,
negative ones included; the packing position `(i & ~3) + (3 - (i & 3))` lies in
0..1023 for `i < 1024`; the loader's `j` is `q < 256` throughout word `q`, so at
its store; the packer's `j` is `q < 256` at its read for word `q`; and the
checked embedding never leaves the bounds: both packing loops, every step, the
round and the whole program return without an out-of-range access. -/
theorem indices_in_bounds (p : Platform) (argc : Int) (stdin : List Nat) (ws : List WriteResult)
    (e : Engine) (v0 v1 : Nat) (be s0 r be0 : List Nat) (x : Int) (i q t k : Nat)
    (hb : ∀ b ∈ stdin, b < 256) (he : e.WF) (hbe : be.length = 1024) (hs0 : s0.length = 256)
    (hr : r.length = 256) (hbe0 : be0.length = 1024) (hi : i < 1024) (hq : q < 256)
    (ht : t < 4) (hk : k < 256) :
    (0 ≤ intAnd (k + 128) 0xff ∧ intAnd (k + 128) 0xff < 256)
      ∧ (0 ≤ intAnd (x >>> (2 : Nat)) 0xff ∧ intAnd (x >>> (2 : Nat)) 0xff < 256)
      ∧ (0 ≤ intAnd (x >>> (10 : Nat)) 0xff ∧ intAnd (x >>> (10 : Nat)) 0xff < 256)
      ∧ (0 ≤ intAnd i (~~~(3 : Int)) + (3 - intAnd i 3)
          ∧ intAnd i (~~~(3 : Int)) + (3 - intAnd i 3) < 1024)
      ∧ (∃ st, forLoop (loadStep be) (4 * q + t) { v := v0, j := 0, s := s0 } = some st
          ∧ st.j = q)
      ∧ (∃ st, forLoop (packStep r) (4 * q) { v := v1, j := 0, be := be0 } = some st
          ∧ st.j = q)
      ∧ (loadSeed v0 be s0).isSome = true ∧ (packLoop v1 r be0).isSome = true
      ∧ (step k e).isSome = true ∧ (round e).isSome = true
      ∧ (main p argc stdin ws).status ≠ .fault := by
  refine ⟨intAnd_ff_range _, intAnd_ff_range _, intAnd_ff_range _, pack_index_range i hi,
    ?_, ?_, ?_, ?_, ?_, ?_, main_no_fault p argc stdin ws hb⟩
  · obtain ⟨st, h1, h2, -⟩ := load_j be hbe v0 s0 hs0 (4 * q + t) (by omega)
    refine ⟨st, h1, ?_⟩
    rw [h2]
    have : (4 * q + t) / 4 = q := by omega
    rw [this]
  · obtain ⟨st, h1, h2, -⟩ := pack_j r hr v1 be0 hbe0 (4 * q) (by omega)
    refine ⟨st, h1, ?_⟩
    rw [h2]
    have : (4 * q + 3) / 4 = q := by omega
    rw [this]
  · obtain ⟨st, h1, -, -⟩ := load_j be hbe v0 s0 hs0 1024 (le_refl _)
    have h4 : DIM_be = 1024 := by decide
    rw [loadSeed, h4, h1]
    rfl
  · obtain ⟨st, h1, -, -⟩ := pack_j r hr v1 be0 hbe0 1024 (le_refl _)
    have h4 : DIM_be = 1024 := by decide
    rw [packLoop, h4, h1]
    rfl
  · rw [(step_eq k hk e he).1]
    rfl
  · rw [(round_eq e he).1]
    rfl

/-- Witness for C16: the last loop indices and a negative `x`. -/
theorem indices_in_bounds_witness :
    (∀ b ∈ zeros 1024, b < 256)
      ∧ Engine.WF ⟨0xffffffff, 0x80000000, 0xffffffff, List.replicate 256 0xdeadbeef, zeros 256⟩
      ∧ (zeros 1024).length = 1024 ∧ (zeros 256).length = 256 ∧ 1023 < 1024 ∧ 255 < 256
      ∧ 3 < 4
      ∧ (0 ≤ intAnd (((-5 : Int)) >>> (2 : Nat)) 0xff
          ∧ intAnd (((-5 : Int)) >>> (2 : Nat)) 0xff < 256)
      ∧ (0 ≤ intAnd ((1023 : Nat) : Int) (~~~(3 : Int)) + (3 - intAnd ((1023 : Nat) : Int) 3)
          ∧ intAnd ((1023 : Nat) : Int) (~~~(3 : Int)) + (3 - intAnd ((1023 : Nat) : Int) 3)
              < 1024)
      ∧ (∃ st, forLoop (loadStep (zeros 1024)) (4 * 255 + 3) { v := 7, j := 0, s := zeros 256 }
            = some st ∧ st.j = ((255 : Nat) : Int))
      ∧ (main ⟨32, 0⟩ 1 (zeros 1024) [⟨1024, false, 0⟩, ⟨5, false, 0⟩]).status ≠ .fault :=
  have h : Engine.WF
      ⟨0xffffffff, 0x80000000, 0xffffffff, List.replicate 256 0xdeadbeef, zeros 256⟩ :=
    ⟨by norm_num, by norm_num, by norm_num, List.length_replicate _ _, zeros_length 256,
      fun w hw => by rw [List.eq_of_mem_replicate hw]; norm_num⟩
  have hw := indices_in_bounds ⟨32, 0⟩ 1 (zeros 1024) [⟨1024, false, 0⟩, ⟨5, false, 0⟩]
    ⟨0xffffffff, 0x80000000, 0xffffffff, List.replicate 256 0xdeadbeef, zeros 256⟩ 7 9
    (zeros 1024) (zeros 256) (zeros 256) (zeros 1024) (-5) 1023 255 3 255 zeros_isBuf.2 h
    (zeros_length 1024) (zeros_length 256) (zeros_length 256) (zeros_length 1024) (by decide)
    (by decide) (by decide) (by decide)
  ⟨zeros_isBuf.2, h, zeros_length 1024, zeros_length 256, by decide, by decide, by decide,
    hw.2.1, hw.2.2.2.1, hw.2.2.2.2.1, hw.2.2.2.2.2.2.2.2.2.2⟩

/-! ## Signed `x`, `y` and the invertibility of a step -/

theorem toInt32_neg_iff (u : Nat) (hu : u < 2 ^ 32) : toInt32 u < 0 ↔ 2 ^ 31 ≤ u := by
  unfold toInt32
  split <;> omega

/-- C17: holding `x` and `y` in a signed `int` does not change the algorithm.
For every 32-bit word `u` (it is negative as an `int` exactly when
`u ≥ 2^31`): the arithmetic shift by 2, resp. 10, of the converted value masked
with `0xff` is the unsigned index `(u >> 2) mod 256`, resp. `(u >> 10) mod 256`;
adding a word to the converted value gives the unsigned sum modulo 2^32; so
each step and the round of the code equal the step and the round on unsigned
words on every well-formed state. -/
theorem signed_xy_harmless (u t : Nat) (e : Engine) (i : Nat) (hu : u < 2 ^ 32) (he : e.WF)
    (hi : i < 256) :
    (toInt32 u < 0 ↔ 2 ^ 31 ≤ u)
      ∧ intAnd (toInt32 u >>> (2 : Nat)) 0xff = (((u >>> 2) % 256 : Nat) : Int)
      ∧ intAnd (toInt32 u >>> (10 : Nat)) 0xff = (((u >>> 10) % 256 : Nat) : Int)
      ∧ (ofInt32 (toInt32 u) + t) % 0x100000000 = (u + t) % 2 ^ 32
      ∧ step i e = some (stepSpec i e)
      ∧ round e = some (roundSpec e) := by
  refine ⟨toInt32_neg_iff u hu, idx_shift u hu 2 (Or.inl rfl), idx_shift u hu 10 (Or.inr rfl),
    ?_, (step_eq i hi e he).1, (round_eq e he).1⟩
  rw [ofInt32_toInt32 hu]
  rfl

/-- Witness for C17: the word `0xdeadbeef`, negative as an `int`. -/
theorem signed_xy_harmless_witness :
    0xdeadbeef < 2 ^ 32
      ∧ Engine.WF ⟨0xffffffff, 0x80000000, 0xffffffff, List.replicate 256 0xdeadbeef, zeros 256⟩
      ∧ 77 < 256
      ∧ toInt32 0xdeadbeef < 0
      ∧ intAnd (toInt32 0xdeadbeef >>> (2 : Nat)) 0xff = (((0xdeadbeef >>> 2) % 256 : Nat) : Int)
      ∧ intAnd (toInt32 0xdeadbeef >>> (10 : Nat)) 0xff
          = (((0xdeadbeef >>> 10) % 256 : Nat) : Int)
      ∧ (ofInt32 (toInt32 0xdeadbeef) + 0xffffffff) % 0x100000000
          = (0xdeadbeef + 0xffffffff) % 2 ^ 32
      ∧ step 77 ⟨0xffffffff, 0x80000000, 0xffffffff, List.replicate 256 0xdeadbeef, zeros 256⟩
          = some (stepSpec 77
              ⟨0xffffffff, 0x80000000, 0xffffffff, List.replicate 256 0xdeadbeef, zeros 256⟩) :=
  have h : Engine.WF
      ⟨0xffffffff, 0x80000000, 0xffffffff, List.replicate 256 0xdeadbeef, zeros 256⟩ :=
    ⟨by norm_num, by norm_num, by norm_num, List.length_replicate _ _, zeros_length 256,
      fun w hw => by rw [List.eq_of_mem_replicate hw]; norm_num⟩
  have hw := signed_xy_harmless 0xdeadbeef 0xffffffff _ 77 (by norm_num) h (by decide)
  ⟨by norm_num, h, by decide, hw.1.mpr (by norm_num), hw.2.1, hw.2.2.1, hw.2.2.2.1,
    hw.2.2.2.2.1⟩

theorem forLoop_first {σ : Type} (body : Nat → σ → Option σ) (st st2 : σ)
    (h : body 0 st = body 0 st2) (n : Nat) :
    forLoop body (n + 1) st = forLoop body (n + 1) st2 := by
  induction n with
  | zero =>
    rw [forLoop_succ, forLoop_succ]
    exact h
  | succ n ih => rw [forLoop_succ, ih, ← forLoop_succ]

theorem loadSeed_junk (v0 : Nat) (be s0 : List Nat) : loadSeed v0 be s0 = loadSeed 0 be s0 := by
  have h : loadStep be 0 { v := v0, j := 0, s := s0 } = loadStep be 0 { v := 0, j := 0, s := s0 } := by
    unfold loadStep
    rw [intAnd_three]
    rfl
  have h4 : DIM_be = 1023 + 1 := by decide
  rw [loadSeed, loadSeed, h4, forLoop_first _ _ _ h]

theorem packLoop_junk (v0 : Nat) (r be0 : List Nat) : packLoop v0 r be0 = packLoop 0 r be0 := by
  have h : packStep r 0 { v := v0, j := 0, be := be0 }
      = packStep r 0 { v := 0, j := 0, be := be0 } := by
    rw [packStep_eq r 0 (by decide), packStep_eq r 0 (by decide)]
    rfl
  have h4 : DIM_be = 1023 + 1 := by decide
  rw [packLoop, packLoop, h4, forLoop_first _ _ _ h]

theorem generate_junk (E : Int) (j1 : Nat) (ws : List WriteResult) (e : Engine)
    (be : List Nat) (n : Nat) (out : List Nat) :
    generate ⟨E, j1⟩ ws e be n out = generate ⟨E, 0⟩ ws e be n out := by
  induction ws generalizing e be n out with
  | nil => rw [generate, generate]
  | cons w ws ih =>
    rw [generate, generate]
    simp only [ih, packLoop_junk j1]

theorem boot_junk (v0 : Nat) (be : List Nat) : boot v0 be = boot 0 be := by
  rw [boot, boot, loadSeed_junk v0]

theorem main_junk (E : Int) (j1 : Nat) (argc : Int) (stdin : List Nat) (ws : List WriteResult) :
    main ⟨E, j1⟩ argc stdin ws = main ⟨E, 0⟩ argc stdin ws := by
  by_cases hc : argc > 1 ∨ (fread (zeros sizeof_be) sizeof_s stdin).2 ≠ sizeof_be
  · rw [main, main, if_pos hc, if_pos hc]
  · rw [main, main, if_neg hc, if_neg hc]
    have hb : boot (Platform.junk ⟨E, j1⟩) (fread (zeros sizeof_be) sizeof_s stdin).1
        = boot (Platform.junk ⟨E, 0⟩) (fread (zeros sizeof_be) sizeof_s stdin).1 :=
      boot_junk j1 _
    rw [hb]
    generalize boot (Platform.junk ⟨E, 0⟩) (fread (zeros sizeof_be) sizeof_s stdin).1 = o
    cases o with
    | none => rfl
    | some e0 => exact generate_junk E j1 ws e0 _ 0 []

/-- In the execution that keeps `v` between iterations, the value `v` holds on
entry to either packing loop is never read: the loaded array, the packed buffer
and the whole run of the program are the same for any two entry values. -/
theorem scratch_word_irrelevant (v0 v1 : Nat) (E argc : Int) (stdin : List Nat)
    (ws : List WriteResult) (be s0 r be0 : List Nat) (hbe : be.length = 1024)
    (hs0 : s0.length = 256) (hr : r.length = 256) (hbe0 : be0.length = 1024) :
    (∃ s, loadSeed v0 be s0 = some s ∧ loadSeed v1 be s0 = some s)
      ∧ (∃ be1, packLoop v0 r be0 = some be1 ∧ packLoop v1 r be0 = some be1)
      ∧ main ⟨E, v0⟩ argc stdin ws = main ⟨E, v1⟩ argc stdin ws := by
  have h4 : DIM_be = 1024 := by decide
  refine ⟨?_, ?_, by rw [main_junk E v0, main_junk E v1]⟩
  · obtain ⟨st, h1, -, -⟩ := load_j be hbe v0 s0 hs0 1024 (le_refl _)
    have h2 : loadSeed v0 be s0 = some st.s := by rw [loadSeed, h4, h1]; rfl
    exact ⟨st.s, h2, by rw [loadSeed_junk v1, ← loadSeed_junk v0, h2]⟩
  · obtain ⟨st, h1, -, -⟩ := pack_j r hr v0 be0 hbe0 1024 (le_refl _)
    have h2 : packLoop v0 r be0 = some st.be := by rw [packLoop, h4, h1]; rfl
    exact ⟨st.be, h2, by rw [packLoop_junk v1, ← packLoop_junk v0, h2]⟩

/-! ## The first round on the all-zero seed -/

theorem loadStepFresh_block (junk : Nat → Nat) (be : List Nat) (hbe : be.length = 1024)
    (q : Nat) (hq : q < 256) (st : LoadSt) (hj : st.j = q) (hs : q < st.s.length) :
    ((((some st).bind (loadStepFresh junk be (4 * q))).bind
        (loadStepFresh junk be (4 * q + 1))).bind
        (loadStepFresh junk be (4 * q + 2))).bind (loadStepFresh junk be (4 * q + 3))
      = some { v := freshWord junk be q, j := (q : Int) + 1,
               s := st.s.set q (freshWord junk be q) } := by
  have m0 : (4 * q) % 4 = 0 := by omega
  have m1 : (4 * q + 1) % 4 = 1 := by omega
  have m2 : (4 * q + 2) % 4 = 2 := by omega
  have m3 : (4 * q + 3) % 4 = 3 := by omega
  simp only [loadStepFresh, loadStep, Option.some_bind, intAnd_three, m0, m1, m2, m3,
    rd_getD be (4 * q) (by omega), rd_getD be (4 * q + 1) (by omega),
    rd_getD be (4 * q + 2) (by omega), rd_getD be (4 * q + 3) (by omega)]
  norm_num [hj, wr_nat _ _ _ hs, freshWord]

theorem load_inv_fresh (junk : Nat → Nat) (be : List Nat) (hbe : be.length = 1024)
    (s0 : List Nat) (hs0 : s0.length = 256) (q : Nat) (hq : q ≤ 256) :
    ∃ st, forLoop (loadStepFresh junk be) (4 * q) { v := junk 0, j := 0, s := s0 } = some st
      ∧ LoadInvFresh junk be q st := by
  induction q with
  | zero => exact ⟨_, rfl, by simp [LoadInvFresh, hs0]⟩
  | succ q ih =>
    obtain ⟨st, hst, hj, hlen, hk⟩ := ih (by omega)
    refine ⟨{ v := freshWord junk be q, j := (q : Int) + 1,
              s := st.s.set q (freshWord junk be q) }, ?_, ?_⟩
    · rw [forLoop_four, hst]
      exact loadStepFresh_block junk be hbe q (by omega) st hj (by omega)
    · refine ⟨by simp, by simp [hlen], ?_⟩
      intro k hkq
      simp only [List.getElem?_set]
      by_cases h : q = k
      · subst h
        simp [hlen]; omega
      · simp only [h, if_false]
        exact hk k (by omega)

theorem loadSeedFresh_eq (junk : Nat → Nat) (be : List Nat) (hbe : be.length = 1024)
    (s0 : List Nat) (hs0 : s0.length = 256) :
    loadSeedFresh junk be s0 = some ((List.range 256).map (freshWord junk be)) := by
  obtain ⟨st, hst, -, hlen, hk⟩ := load_inv_fresh junk be hbe s0 hs0 256 (le_refl _)
  have h4 : DIM_be = 4 * 256 := by decide
  rw [loadSeedFresh, h4, hst]
  simp only [Option.map_some', Option.some.injEq]
  apply List.ext_getElem?
  intro k
  by_cases hk2 : k < 256
  · rw [hk k hk2, List.getElem?_map, List.getElem?_range hk2]
    rfl
  · rw [List.getElem?_eq_none (by omega),
      List.getElem?_eq_none (by rw [List.length_map, List.length_range]; omega)]

theorem packStepFresh_block (junk : Nat → Nat) (r : List Nat) (q : Nat) (hq : q < 256)
    (hr : r.length = 256) (st : PackSt) (hj : st.j = q) (hbe : st.be.length = 1024) :
    ((((some st).bind (packStepFresh junk r (4 * q))).bind
        (packStepFresh junk r (4 * q + 1))).bind
        (packStepFresh junk r (4 * q + 2))).bind (packStepFresh junk r (4 * q + 3))
      = some { v := junk (4 * q + 3) >>> 8, j := (q : Int) + 1,
               be := (((st.be.set (4 * q + 3) (r.getD q 0 % 256)).set (4 * q + 2)
                  (junk (4 * q + 1) % 256)).set (4 * q + 1)
                  (junk (4 * q + 2) % 256)).set (4 * q) (junk (4 * q + 3) % 256) } := by
  have m0 : (4 * q) % 4 = 0 := by omega
  have m1 : (4 * q + 1) % 4 = 1 := by omega
  have m2 : (4 * q + 2) % 4 = 2 := by omega
  have m3 : (4 * q + 3) % 4 = 3 := by omega
  have i0 : 4 * q - 0 + (3 - 0) = 4 * q + 3 := by omega
  have i1 : 4 * q + 1 - 1 + (3 - 1) = 4 * q + 2 := by omega
  have i2 : 4 * q + 2 - 2 + (3 - 2) = 4 * q + 1 := by omega
  have i3 : 4 * q + 3 - 3 + (3 - 3) = 4 * q := by omega
  simp only [packStepFresh, packStep_eq r _ (show 4 * q < 1024 by omega),
    packStep_eq r _ (show 4 * q + 1 < 1024 by omega),
    packStep_eq r _ (show 4 * q + 2 < 1024 by omega),
    packStep_eq r _ (show 4 * q + 3 < 1024 by omega),
    m0, m1, m2, m3, i0, i1, i2, i3, hj, rd_getD r q (by omega), Option.some_bind,
    Option.map_some', if_true, one_ne_zero, if_false, OfNat.ofNat_ne_zero]
  rw [wr_nat _ _ _ (by omega)]
  simp only [Option.some_bind]
  rw [wr_nat _ _ _ (by simp; omega)]
  simp only [Option.some_bind]
  rw [wr_nat _ _ _ (by simp; omega)]
  simp only [Option.some_bind]
  rw [wr_nat _ _ _ (by simp; omega)]
  simp only [Option.some_bind]

theorem pack_inv_fresh (junk : Nat → Nat) (r : List Nat) (hr : r.length = 256)
    (be0 : List Nat) (hbe0 : be0.length = 1024) (q : Nat) (hq : q ≤ 256) :
    ∃ st, forLoop (packStepFresh junk r) (4 * q) { v := junk 0, j := 0, be := be0 } = some st
      ∧ PackInvFresh junk r q st := by
  induction q with
  | zero => exact ⟨_, rfl, by simp [PackInvFresh, hbe0]⟩
  | succ q ih =>
    obtain ⟨st, hst, hj, hlen, hk⟩ := ih (by omega)
    refine ⟨{ v := junk (4 * q + 3) >>> 8, j := (q : Int) + 1,
               be := (((st.be.set (4 * q + 3) (r.getD q 0 % 256)).set (4 * q + 2)
                  (junk (4 * q + 1) % 256)).set (4 * q + 1)
                  (junk (4 * q + 2) % 256)).set (4 * q) (junk (4 * q + 3) % 256) }, ?_, ?_⟩
    · rw [forLoop_four, hst]
      exact packStepFresh_block junk r q (by omega) hr st hj hlen
    · refine ⟨by simp, by simp [hlen], ?_⟩
      intro i hi
      by_cases h : i < 4 * q
      · simp only [List.getElem?_set]
        rw [if_neg (by omega), if_neg (by omega), if_neg (by omega), if_neg (by omega)]
        exact hk i h
      · obtain ⟨t, ht, rfl⟩ : ∃ t, t < 4 ∧ i = 4 * q + t := ⟨i - 4 * q, by omega, by omega⟩
        have hd : (4 * q + t) / 4 = q := by omega
        have hm : (4 * q + t) % 4 = t := by omega
        simp only [List.getElem?_set, List.length_set, hlen, freshOctet, hd, hm]
        interval_cases t <;> simp <;> omega

theorem packLoopFresh_eq (junk : Nat → Nat) (r : List Nat) (hr : r.length = 256)
    (be0 : List Nat) (hbe0 : be0.length = 1024) :
    packLoopFresh junk r be0 = some ((List.range 1024).map (freshOctet junk r)) := by
  obtain ⟨st, hst, -, hlen, hk⟩ := pack_inv_fresh junk r hr be0 hbe0 256 (le_refl _)
  have h4 : DIM_be = 4 * 256 := by decide
  rw [packLoopFresh, h4, hst]
  simp only [Option.map_some', Option.some.injEq]
  apply List.ext_getElem?
  intro k
  by_cases hk2 : k < 1024
  · rw [hk k (by omega), List.getElem?_map, List.getElem?_range hk2]
    rfl
  · rw [List.getElem?_eq_none (by omega),
      List.getElem?_eq_none (by rw [List.length_map, List.length_range]; omega)]

theorem loadSeed_is_fresh (v0 : Nat) (be s0 : List Nat) :
    loadSeedFresh (carriedLoadV v0 be s0) be s0 = loadSeed v0 be s0 := by
  have h : ∀ n, forLoop (loadStepFresh (carriedLoadV v0 be s0) be) n
        { v := carriedLoadV v0 be s0 0, j := 0, s := s0 }
      = forLoop (loadStep be) n { v := v0, j := 0, s := s0 } := by
    intro n
    induction n with
    | zero => rfl
    | succ n ih =>
      rw [forLoop_succ, forLoop_succ, ih]
      cases hst : forLoop (loadStep be) n { v := v0, j := 0, s := s0 } with
      | none => rfl
      | some st =>
        have hv : carriedLoadV v0 be s0 n = st.v := by
          rw [carriedLoadV, hst]
          rfl
        rw [Option.some_bind, Option.some_bind, loadStepFresh, hv]
  rw [loadSeedFresh, loadSeed, h]

theorem packLoop_is_fresh (v0 : Nat) (r be0 : List Nat) :
    packLoopFresh (carriedPackV v0 r be0) r be0 = packLoop v0 r be0 := by
  have h : ∀ n, forLoop (packStepFresh (carriedPackV v0 r be0) r) n
        { v := carriedPackV v0 r be0 0, j := 0, be := be0 }
      = forLoop (packStep r) n { v := v0, j := 0, be := be0 } := by
    intro n
    induction n with
    | zero => rfl
    | succ n ih =>
      rw [forLoop_succ, forLoop_succ, ih]
      cases hst : forLoop (packStep r) n { v := v0, j := 0, be := be0 } with
      | none => rfl
      | some st =>
        have hv : carriedPackV v0 r be0 n = st.v := by
          rw [carriedPackV, hst]
          rfl
        rw [Option.some_bind, Option.some_bind, packStepFresh, hv]
  rw [packLoopFresh, packLoop, h]

theorem map_range_zero (f : Nat → Nat) (n : Nat) (hn : 0 < n) :
    ((List.range n).map f)[0]? = some (f 0) := by
  rw [List.getElem?_map, List.getElem?_range hn]
  rfl

/-- C19, on the code as lines 56 and 77 declare `v`: inside the loop body, so a
new object with an arbitrary value at every iteration, read by `v <<= 8` and by
`v & 0xff` when `i mod 4 ≠ 0`. That value reaches the state and the output. On
the seed with octets `0, 1, 2, 3, ...` the loader stores `s[0] = 3` when every
new `v` holds 0 and `s[0] = 259` when every new `v` holds 1, where the
execution that keeps `v` stores the big-endian word `0x00010203`; on a batch of
words `0x01020304` the packer writes octet 0 as `0` or `0xff` according to the
value of the new `v`, where the execution that keeps `v` writes `1`. The
keeping execution is one of those the declaration allows. -/
theorem scratch_word_read_uninitialised :
    (∃ s, loadSeed 0 ramp (zeros 256) = some s ∧ s[0]? = some 0x00010203)
      ∧ (∃ s, loadSeedFresh (fun _ => 0) ramp (zeros 256) = some s ∧ s[0]? = some 3)
      ∧ (∃ s, loadSeedFresh (fun _ => 1) ramp (zeros 256) = some s ∧ s[0]? = some 259)
      ∧ loadSeedFresh (fun _ => 0) ramp (zeros 256) ≠ loadSeedFresh (fun _ => 1) ramp (zeros 256)
      ∧ (∃ be, packLoop 0 (List.replicate 256 0x01020304) (zeros 1024) = some be
          ∧ be[0]? = some 1)
      ∧ (∃ be, packLoopFresh (fun _ => 0) (List.replicate 256 0x01020304) (zeros 1024) = some be
          ∧ be[0]? = some 0)
      ∧ (∃ be, packLoopFresh (fun _ => 0xff) (List.replicate 256 0x01020304) (zeros 1024)
            = some be ∧ be[0]? = some 0xff)
      ∧ packLoopFresh (fun _ => 0) (List.replicate 256 0x01020304) (zeros 1024)
          ≠ packLoopFresh (fun _ => 0xff) (List.replicate 256 0x01020304) (zeros 1024)
      ∧ loadSeedFresh (carriedLoadV 0 ramp (zeros 256)) ramp (zeros 256)
          = loadSeed 0 ramp (zeros 256)
      ∧ packLoopFresh (carriedPackV 0 (List.replicate 256 0x01020304) (zeros 1024))
            (List.replicate 256 0x01020304) (zeros 1024)
          = packLoop 0 (List.replicate 256 0x01020304) (zeros 1024) := by
  have hz := zeros_length 256
  have hz2 := zeros_length 1024
  have hB : (List.replicate 256 0x01020304).length = 256 := List.length_replicate _ _
  have hr3 := ramp_getD 3 (by decide)
  have hr0 := ramp_getD 0 (by decide)
  have hr1 := ramp_getD 1 (by decide)
  have hr2 := ramp_getD 2 (by decide)
  have hw0 : freshWord (fun _ => 0) ramp 0 = 3 := by
    rw [freshWord, hr3]
    rfl
  have hw1 : freshWord (fun _ => 1) ramp 0 = 259 := by
    rw [freshWord, hr3]
    rfl
  have hc : beWord ramp 0 = 0x00010203 := by
    rw [beWord, hr0, hr1, hr2, hr3]
    rfl
  have hL0 := loadSeedFresh_eq (fun _ => 0) ramp ramp_length (zeros 256) hz
  have hL1 := loadSeedFresh_eq (fun _ => 1) ramp ramp_length (zeros 256) hz
  have hP0 := packLoopFresh_eq (fun _ => 0) (List.replicate 256 0x01020304) hB (zeros 1024) hz2
  have hP1 := packLoopFresh_eq (fun _ => 0xff) (List.replicate 256 0x01020304) hB (zeros 1024) hz2
  have ho0 : freshOctet (fun _ => 0) (List.replicate 256 0x01020304) 0 = 0 := rfl
  have ho1 : freshOctet (fun _ => 0xff) (List.replicate 256 0x01020304) 0 = 0xff := rfl
  refine ⟨⟨_, loadSeed_eq ramp ramp_length (getD_lt_of_forall (by decide) ramp_isBuf.2) 0 _ hz,
      by rw [wordsOf_getElem? ramp 0 (by decide), hc]⟩,
    ⟨_, hL0, by rw [map_range_zero _ 256 (by decide), hw0]⟩,
    ⟨_, hL1, by rw [map_range_zero _ 256 (by decide), hw1]⟩, ?_,
    ⟨_, packLoop_eq _ hB 0 _ hz2, ?_⟩,
    ⟨_, hP0, by rw [map_range_zero _ 1024 (by decide), ho0]⟩,
    ⟨_, hP1, by rw [map_range_zero _ 1024 (by decide), ho1]⟩, ?_,
    loadSeed_is_fresh 0 ramp (zeros 256), packLoop_is_fresh 0 _ (zeros 1024)⟩
  · rw [hL0, hL1]
    intro h
    have h2 := congrArg (fun l => l[0]?) (Option.some.inj h)
    simp only [] at h2
    rw [map_range_zero _ 256 (by decide), map_range_zero _ 256 (by decide), hw0, hw1] at h2
    exact absurd (Option.some.inj h2) (by decide)
  · have h := beBytes_octet (List.replicate 256 0x01020304) 0 0 (by rw [hB]; decide) (by decide)
    rw [Nat.mul_zero, Nat.add_zero] at h
    rw [h]
    rfl
  · rw [hP0, hP1]
    intro h
    have h2 := congrArg (fun l => l[0]?) (Option.some.inj h)
    simp only [] at h2
    rw [map_range_zero _ 1024 (by decide), map_range_zero _ 1024 (by decide), ho0, ho1] at h2
    exact absurd (Option.some.inj h2) (by decide)

end Isaac
